import Mathlib

/-
  Verification development for the muehle_mcts repository: a shallow
  embedding of the board/game engine (mühle.py) and of the MCTS engine
  (mcts/base.py, mcts/simple.py), followed by theorems settling the
  frozen claims about the natural-language specification.

  Modelling conventions:
  * Python ints are Int (board coordinates, piece counts) or Nat where the
    source only ever produces non-negative values (placed-item counters,
    loop bounds).  Python `%` on a positive modulus agrees with Int.emod.
  * Python dicts with unique keys are association lists in insertion
    order; dict.pop removes the key, insertion of a fresh key appends.
  * Python assert / raise is modelled by Option/error results; a function
    that mutates `self` is modelled by returning the updated value, and
    where a claim is about the state left behind by a *failed* call the
    model returns the state as mutated before the failing check.
  * random.randint is modelled by an oracle stream `Nat → Nat`, reduced
    into range with `%`.
  * Python floats (MCTS rewards) are idealised as exact rationals ℚ.
-/

namespace Muehle

/-- Player identifiers: the game always has the two players 0 and 1. -/
abbrev PlayerID := Fin 2

/-- Pieces carry the id of the owning player (class Piece). -/
structure Piece where
  playerID : PlayerID
  deriving DecidableEq, Repr

/-- Board position: class Position(ring, index). -/
structure Position where
  ring : Int
  index : Int
  deriving DecidableEq, Repr

/-- class DefaultBoardDesign(sides, extended); ring_size = 2 * sides. -/
structure BoardDesign where
  sides : Nat
  extended : Bool
  deriving DecidableEq, Repr

/-- self.ring_size = 2 * sides, as an Int for index arithmetic. -/
def ringSize (d : BoardDesign) : Int := 2 * d.sides

/-- DefaultBoardDesign.is_linked_to. -/
def is_linked_to (d : BoardDesign) (a b : Position) : Bool :=
  if a.ring = b.ring then
    decide ((a.index - b.index).natAbs % (2 * d.sides - 2) = 1)
  else if a.index = b.index then
    (d.extended || decide (a.index % 2 = 1)) && decide ((a.ring - b.ring).natAbs = 1)
  else
    false

/-- DefaultBoardDesign.neighbors_of (generator, in yield order). -/
def neighbors_of (d : BoardDesign) (pos : Position) : List Position :=
  [⟨pos.ring, (pos.index - 1) % ringSize d⟩, ⟨pos.ring, (pos.index + 1) % ringSize d⟩] ++
    (if d.extended || decide (pos.index % 2 = 1) then
      (if pos.ring > 0 then [⟨pos.ring - 1, pos.index⟩] else []) ++
        (if pos.ring < 2 then [⟨pos.ring + 1, pos.index⟩] else [])
    else [])

/-- The body of get_third_in_line's same-ring case after the wraparound
normalisation: a and b are the (possibly shifted) ordered indices. -/
def thirdOnRingOrdered (d : BoardDesign) (r a b : Int) : Option Position :=
  if b - a = 1 then
    if a % 2 = 0 then some ⟨r, (a + 2) % ringSize d⟩
    else some ⟨r, (a - 1) % ringSize d⟩
  else if b - a = 2 then
    if a % 2 = 0 then some ⟨r, (a + 1) % ringSize d⟩
    else none  -- two odd points cannot be on a line
  else none  -- distance more than 2

/-- get_third_in_line's same-ring case on (min index, max index), with the
special condition at ring end/start (`a, b = (b, a + ring_size)`). -/
def thirdOnRing (d : BoardDesign) (r a0 b0 : Int) : Option Position :=
  if b0 - a0 > 2 then thirdOnRingOrdered d r b0 (a0 + ringSize d)
  else thirdOnRingOrdered d r a0 b0

/-- get_third_in_line's cross-ring case on (min ring, max ring). -/
def thirdAcrossRings (a b idx : Int) : Option Position :=
  if a = 0 then
    if b = 1 then some ⟨2, idx⟩ else some ⟨1, idx⟩
  else some ⟨0, idx⟩

/-- DefaultBoardDesign.get_third_in_line; ValueError is `none`. -/
def get_third_in_line (d : BoardDesign) (first second : Position) : Option Position :=
  if first.ring = second.ring ∧ first.index ≠ second.index then
    thirdOnRing d first.ring (min first.index second.index) (max first.index second.index)
  else if first.ring ≠ second.ring ∧ first.index = second.index then
    if d.extended || decide (first.index % 2 = 1) then
      thirdAcrossRings (min first.ring second.ring) (max first.ring second.ring) first.index
    else none
  else none

/-- DefaultBoardDesign.iter_fields. -/
def iter_fields (d : BoardDesign) : List Position :=
  (List.range 3).flatMap fun (ring : Nat) =>
    (List.range (2 * d.sides)).map fun (index : Nat) => ⟨(ring : Int), (index : Int)⟩

/-- DefaultBoardDesign.iter_lines: ring-parallel lines then cross-ring lines. -/
def iter_lines (d : BoardDesign) : List (Position × Position × Position) :=
  ((List.range 3).flatMap fun (ring : Nat) =>
    (List.range d.sides).map fun (side : Nat) =>
      let i : Int := 2 * (side : Int)
      ((⟨(ring : Int), i⟩ : Position), (⟨(ring : Int), i + 1⟩ : Position),
        (⟨(ring : Int), (i + 2) % ringSize d⟩ : Position))) ++
  ((List.range (2 * d.sides)).filterMap fun (index : Nat) =>
    if d.extended || decide (index % 2 = 1) then
      some ((⟨0, (index : Int)⟩ : Position), (⟨1, (index : Int)⟩ : Position),
        (⟨2, (index : Int)⟩ : Position))
    else none)

/-- DefaultBoardDesign.iter_lines_of (generator, in yield order). -/
def iter_lines_of (d : BoardDesign) (pos : Position) : List (Position × Position) :=
  (if d.extended || decide (pos.index % 2 = 1) then
    -- Between rings
    [((⟨(pos.ring + 1) % 3, pos.index⟩ : Position), (⟨(pos.ring + 2) % 3, pos.index⟩ : Position))]
  else []) ++
  (if pos.index % 2 = 1 then
    -- From an odd position, parallel to a ring
    [((⟨pos.ring, pos.index - 1⟩ : Position), (⟨pos.ring, (pos.index + 1) % ringSize d⟩ : Position))]
  else
    -- From an even position, parallel to a ring
    [((⟨pos.ring, (pos.index - 1) % ringSize d⟩ : Position),
        (⟨pos.ring, (pos.index - 2) % ringSize d⟩ : Position)),
     ((⟨pos.ring, (pos.index + 1) % ringSize d⟩ : Position),
        (⟨pos.ring, (pos.index + 2) % ringSize d⟩ : Position))])

/-- class GameBoard: fields dict (assoc list in insertion order) plus the
incrementally maintained two-entry count array. -/
structure GameBoard where
  design : BoardDesign
  fields : List (Position × Piece)
  count0 : Int
  count1 : Int
  deriving DecidableEq, Repr

/-- dict.get(pos, None) on the fields dict. -/
def findPiece : List (Position × Piece) → Position → Option Piece
  | [], _ => none
  | (p, pc) :: rest, pos => if p = pos then some pc else findPiece rest pos

/-- dict.pop(pos): drop the entry with the given key. -/
def removeKey (fs : List (Position × Piece)) (pos : Position) : List (Position × Piece) :=
  fs.filter fun e => decide (e.1 ≠ pos)

/-- GameBoard.count. -/
def GameBoard.count (b : GameBoard) (playerID : PlayerID) : Int :=
  if playerID = 0 then b.count0 else b.count1

/-- GameBoard.count_total. -/
def GameBoard.count_total (b : GameBoard) : Int × Int := (b.count0, b.count1)

/-- GameBoard.is_empty. -/
def GameBoard.is_empty (b : GameBoard) (pos : Position) : Bool :=
  (findPiece b.fields pos).isNone

/-- GameBoard.iter_empty. -/
def GameBoard.iter_empty (b : GameBoard) : List Position :=
  (iter_fields b.design).filter fun pos => b.is_empty pos

/-- GameBoard.iter_pieces with an explicit playerID filter. -/
def GameBoard.iter_pieces (b : GameBoard) (playerID : PlayerID) : List (Position × Piece) :=
  b.fields.filter fun e => decide (e.2.playerID = playerID)

/-- Whether the position holds a piece of the given player (the
`p.playerID == playerID if p else False` idiom). -/
def GameBoard.ownedBy (b : GameBoard) (playerID : PlayerID) (pos : Position) : Bool :=
  match findPiece b.fields pos with
  | some pc => decide (pc.playerID = playerID)
  | none => false

/-- GameBoard.iter_mills. -/
def GameBoard.iter_mills (b : GameBoard) (playerID : PlayerID) :
    List (Position × Position × Position) :=
  (iter_lines b.design).filter fun t =>
    b.ownedBy playerID t.1 && b.ownedBy playerID t.2.1 && b.ownedBy playerID t.2.2

/-- The set of positions covered by some complete mill of the player
(`all_mills_pos` in iter_pieces_inside_mill / iter_pieces_outside_mill). -/
def GameBoard.millPositions (b : GameBoard) (playerID : PlayerID) : List Position :=
  (b.iter_mills playerID).flatMap fun t => [t.1, t.2.1, t.2.2]

/-- GameBoard.iter_pieces_inside_mill. -/
def GameBoard.iter_pieces_inside_mill (b : GameBoard) (playerID : PlayerID) :
    List (Position × Piece) :=
  b.fields.filter fun e =>
    decide (e.2.playerID = playerID) && decide (e.1 ∈ b.millPositions playerID)

/-- GameBoard.iter_pieces_outside_mill. -/
def GameBoard.iter_pieces_outside_mill (b : GameBoard) (playerID : PlayerID) :
    List (Position × Piece) :=
  b.fields.filter fun e =>
    decide (e.2.playerID = playerID) && !decide (e.1 ∈ b.millPositions playerID)

/-- GameBoard.iter_ready_mills. -/
def GameBoard.iter_ready_mills (b : GameBoard) (playerID : PlayerID) (pos : Position) :
    List (Position × Position) :=
  if (findPiece b.fields pos).isSome then []  -- Not empty, so no mill is ready for pos
  else (iter_lines_of b.design pos).filter fun pr =>
    b.ownedBy playerID pr.1 && b.ownedBy playerID pr.2

/-- _count[pid] += 1. -/
def GameBoard.incCount (b : GameBoard) (pid : PlayerID) : GameBoard :=
  if pid = 0 then { b with count0 := b.count0 + 1 } else { b with count1 := b.count1 + 1 }

/-- _count[pid] -= 1. -/
def GameBoard.decCount (b : GameBoard) (pid : PlayerID) : GameBoard :=
  if pid = 0 then { b with count0 := b.count0 - 1 } else { b with count1 := b.count1 - 1 }

/-- GameBoard.place; `none` is the AssertionError for an occupied target. -/
def GameBoard.place (b : GameBoard) (pos : Position) (piece : Piece) : Option GameBoard :=
  if (findPiece b.fields pos).isSome then none
  else some (GameBoard.incCount { b with fields := b.fields ++ [(pos, piece)] } piece.playerID)

/-- GameBoard.jump; `none` for an occupied target or a missing source piece. -/
def GameBoard.jump (b : GameBoard) (start stop : Position) : Option GameBoard :=
  if (findPiece b.fields stop).isSome then none
  else
    match findPiece b.fields start with
    | none => none
    | some pc => some { b with fields := removeKey b.fields start ++ [(stop, pc)] }

/-- GameBoard.move: jump guarded by topological adjacency. -/
def GameBoard.move (b : GameBoard) (start stop : Position) : Option GameBoard :=
  if is_linked_to b.design start stop then b.jump start stop else none

/-- GameBoard.remove: pop with default None, decrement only on a hit. -/
def GameBoard.remove (b : GameBoard) (pos : Position) : GameBoard × Option Piece :=
  match findPiece b.fields pos with
  | none => (b, none)
  | some pc =>
    (GameBoard.decCount { b with fields := removeKey b.fields pos } pc.playerID, some pc)

/-- GameBoard.iter_available_moves. -/
def GameBoard.iter_available_moves (b : GameBoard) (pos : Position) : List Position :=
  (neighbors_of b.design pos).filter fun npos => (findPiece b.fields npos).isNone

/-- Actions (PlaceAction / MoveAction / JumpAction); `attacks` keeps the
None-vs-list distinction of the source. -/
inductive Action where
  | place (playerID : PlayerID) (pos : Position) (atk : Option (List Position))
  | move (playerID : PlayerID) (start stop : Position) (atk : Option (List Position))
  | jump (playerID : PlayerID) (start stop : Position) (atk : Option (List Position))
  deriving DecidableEq, Repr

/-- action.playerID. -/
def Action.playerID : Action → PlayerID
  | .place pid _ _ => pid
  | .move pid _ _ _ => pid
  | .jump pid _ _ _ => pid

/-- action.attacks. -/
def Action.attacks : Action → Option (List Position)
  | .place _ _ atk => atk
  | .move _ _ _ atk => atk
  | .jump _ _ _ atk => atk

/-- Truthiness of action.attacks: the list behind a `None` is empty. -/
def attacksList (a : Action) : List Position :=
  match a.attacks with
  | none => []
  | some l => l

/-- itertools.combinations, in the source's lexicographic emission order. -/
def combinations {α : Type} : Nat → List α → List (List α)
  | 0, _ => [[]]
  | _ + 1, [] => []
  | k + 1, x :: xs => ((combinations k xs).map fun c => x :: c) ++ combinations (k + 1) xs

/-- class GameState.  `players` is always (Player 0, Player 1) and a Player
is just its id, so the turn owner is stored as a PlayerID. -/
structure GameState where
  placed0 : Nat
  placed1 : Nat
  player_turn : PlayerID
  board : GameBoard
  max_placed_items : Nat
  frozen : Bool
  deriving DecidableEq, Repr

/-- self.placed_items[pid] (defaultdict starting at 0). -/
def GameState.placedOf (s : GameState) (pid : PlayerID) : Nat :=
  if pid = 0 then s.placed0 else s.placed1

/-- GameState.__init__(sides); int(sides / 4 * 9) = ⌊9·sides/4⌋ exactly for
all realistic sides, because sides/4 and its product with 9 are exact in
binary floating point. -/
def GameState.init (sides : Nat) : GameState :=
  { placed0 := 0, placed1 := 0, player_turn := 0,
    board := { design := { sides := sides, extended := false },
               fields := [], count0 := 0, count1 := 0 },
    max_placed_items := 9 * sides / 4, frozen := false }

/-- GameState.freeze. -/
def GameState.freeze (s : GameState) : GameState := { s with frozen := true }

/-- GameState.clone: a fresh GameState whose every field is copied from the
source except `frozen`, which the fresh constructor leaves False. -/
def GameState.clone (s : GameState) : GameState := { s with frozen := false }

/-- GameState.other on player ids: (pid + 1) % 2. -/
def otherPlayer (pid : PlayerID) : PlayerID := pid + 1

/-- GameState.calc_available_attacks: capture targets are the opponent's
pieces outside mills when any exist, else the pieces inside mills. -/
def GameState.calc_available_attacks (s : GameState) (player : PlayerID) :
    List (Position × Piece) :=
  if s.board.iter_pieces_outside_mill (otherPlayer player) ≠ [] then
    s.board.iter_pieces_outside_mill (otherPlayer player)
  else if s.board.iter_pieces_inside_mill (otherPlayer player) ≠ [] then
    s.board.iter_pieces_inside_mill (otherPlayer player)
  else []

/-- The inner enhance_with_attacks of GameState.calc_available_actions:
one action per combination of len(mills) capturable pieces if any mill is
ready through pos, otherwise the single action without captures. -/
def enhance_with_attacks (board : GameBoard) (playerID : PlayerID)
    (available_attacks : List (Position × Piece)) (pos : Position)
    (mk : Option (List Position) → Action) : List Action :=
  if board.iter_ready_mills playerID pos ≠ [] then
    (combinations (board.iter_ready_mills playerID pos).length available_attacks).map
      fun comb => mk (some (comb.map Prod.fst))
  else [mk none]

/-- GameState.calc_available_actions for the side to move (the default
`player=None` case used throughout the repository). -/
def GameState.calc_available_actions (s : GameState) : List Action :=
  -- Check if in placing game phase
  if s.placedOf s.player_turn < s.max_placed_items then
    s.board.iter_empty.flatMap fun empty_pos =>
      enhance_with_attacks s.board s.player_turn
        (s.calc_available_attacks s.player_turn) empty_pos
        (fun atk => Action.place s.player_turn empty_pos atk)
  -- Normal move phase
  else if s.board.count s.player_turn > 3 then
    (s.board.iter_pieces s.player_turn).flatMap fun pp =>
      (s.board.iter_available_moves pp.1).flatMap fun end_pos =>
        enhance_with_attacks s.board s.player_turn
          (s.calc_available_attacks s.player_turn) end_pos
          (fun atk => Action.move s.player_turn pp.1 end_pos atk)
  -- Check if in jumping game phase
  else if s.board.count s.player_turn = 3 then
    (s.board.iter_pieces s.player_turn).flatMap fun pp =>
      s.board.iter_empty.flatMap fun end_pos =>
        enhance_with_attacks s.board s.player_turn
          (s.calc_available_attacks s.player_turn) end_pos
          (fun atk => Action.jump s.player_turn pp.1 end_pos atk)
  else []

/-- Failure kinds of GameState.execute, named after the spec's taxonomy:
IllegalMutation for mutating a frozen state / occupied target / missing
adjacency, IllegalAction for a wrong-player action, and a plain
assertion failure for the remaining internal asserts. -/
inductive ExecErr where
  | illegalMutation
  | illegalAction
  | assertionFailed
  deriving DecidableEq, Repr

/-- placed_items[pid] += 1. -/
def GameState.incPlaced (s : GameState) (pid : PlayerID) : GameState :=
  if pid = 0 then { s with placed0 := s.placed0 + 1 } else { s with placed1 := s.placed1 + 1 }

/-- The capture loop at the end of GameState.execute: remove each attacked
position, checking the removed piece belongs to the opponent.  On failure
the board keeps the removals already performed (Python raises mid-loop). -/
def runAttacks (playerID : PlayerID) : GameBoard → List Position → Option ExecErr × GameBoard
  | b, [] => (none, b)
  | b, pos :: rest =>
    match (b.remove pos).2 with
    | none => (some .assertionFailed, (b.remove pos).1)
    | some pc =>
      if pc.playerID = playerID then (some .assertionFailed, (b.remove pos).1)
      else runAttacks playerID (b.remove pos).1 rest

/-- GameState.execute.  The pair is (error-or-success, the state object as
the call leaves it): on success the mutated state with the turn passed on,
on failure the state at the moment of the raise (the frozen and player
checks precede every mutation). -/
def executeStep (s : GameState) (a : Action) : Option ExecErr × GameState :=
  match a with
  | .place _ pos _ =>
    if s.placedOf a.playerID < s.max_placed_items then
      match s.board.place pos ⟨a.playerID⟩ with
      | none => (some .illegalMutation, s)
      | some b1 => (none, GameState.incPlaced { s with board := b1 } a.playerID)
    else (some .assertionFailed, s)
  | .move _ start stop _ =>
    match findPiece s.board.fields start with
    | none => (some .assertionFailed, s)
    | some pc =>
      if pc.playerID = a.playerID then
        match s.board.move start stop with
        | none => (some .illegalMutation, s)
        | some b1 => (none, { s with board := b1 })
      else (some .assertionFailed, s)
  | .jump _ start stop _ =>
    match findPiece s.board.fields start with
    | none => (some .assertionFailed, s)
    | some pc =>
      if pc.playerID = a.playerID then
        match s.board.jump start stop with
        | none => (some .illegalMutation, s)
        | some b1 => (none, { s with board := b1 })
      else (some .assertionFailed, s)

/-- The tail of GameState.execute after the action-specific board change:
the mandatory capture loop (when the action carries attacks) and passing
the turn to the other player. -/
def executeTail (s1 : GameState) (playerID : PlayerID) (atks : List Position) :
    Option ExecErr × GameState :=
  if atks ≠ [] then
    match runAttacks playerID s1.board atks with
    | (some e, b2) => (some e, { s1 with board := b2 })
    | (none, b2) =>
      (none, { s1 with board := b2, player_turn := otherPlayer s1.player_turn })
  else (none, { s1 with player_turn := otherPlayer s1.player_turn })

def GameState.executeM (s : GameState) (a : Action) : Option ExecErr × GameState :=
  if s.frozen then (some .illegalMutation, s)
  else if a.playerID ≠ s.player_turn then (some .illegalAction, s)
  else
    match executeStep s a with
    | (some e, s1) => (some e, s1)
    | (none, s1) => executeTail s1 a.playerID (attacksList a)

/-- A position within the designed board: ring 0..2, index 0..ring_size-1. -/
def ValidPos (d : BoardDesign) (p : Position) : Prop :=
  0 ≤ p.ring ∧ p.ring < 3 ∧ 0 ≤ p.index ∧ p.index < ringSize d

instance (d : BoardDesign) (p : Position) : Decidable (ValidPos d p) := by
  unfold ValidPos; infer_instance

/-- Well-formedness of a state as maintained by the engine: the occupancy
dict has unique keys on designed positions, and the board design satisfies
the constructor's `sides >= 3` assertion. -/
def GameState.WF (s : GameState) : Prop :=
  (s.board.fields.map Prod.fst).Nodup ∧ 3 ≤ s.board.design.sides ∧
    ∀ e ∈ s.board.fields, ValidPos s.board.design e.1

instance (s : GameState) : Decidable s.WF := by
  unfold GameState.WF; infer_instance

/-! ### Association-list lemmas for the occupancy dict -/

theorem findPiece_eq_none_iff (fs : List (Position × Piece)) (pos : Position) :
    findPiece fs pos = none ↔ pos ∉ fs.map Prod.fst := by
  induction fs with
  | nil => simp [findPiece]
  | cons e rest ih =>
    obtain ⟨p, pc⟩ := e
    by_cases h : p = pos
    · subst h
      simp [findPiece]
    · rw [List.map_cons, List.mem_cons]
      simp only [findPiece, if_neg h, ih]
      constructor
      · rintro hn (h1 | h1)
        · exact h h1.symm
        · exact hn h1
      · intro hn h1
        exact hn (Or.inr h1)

theorem mem_of_findPiece_eq_some {fs : List (Position × Piece)} {pos : Position} {pc : Piece}
    (h : findPiece fs pos = some pc) : (pos, pc) ∈ fs := by
  induction fs with
  | nil => simp [findPiece] at h
  | cons e rest ih =>
    obtain ⟨p, pc'⟩ := e
    by_cases hp : p = pos
    · subst hp
      simp [findPiece] at h
      simp [h]
    · simp [findPiece, hp] at h
      exact List.mem_cons_of_mem _ (ih h)

theorem findPiece_eq_some_of_mem {fs : List (Position × Piece)} {pos : Position} {pc : Piece}
    (hnd : (fs.map Prod.fst).Nodup) (h : (pos, pc) ∈ fs) : findPiece fs pos = some pc := by
  induction fs with
  | nil => simp at h
  | cons e rest ih =>
    obtain ⟨p, pc'⟩ := e
    simp only [List.map_cons, List.nodup_cons] at hnd
    rcases List.mem_cons.mp h with h | h
    · obtain ⟨h1, h2⟩ := Prod.mk.injEq .. ▸ h
      simp [findPiece, h1.symm, h2]
    · have hne : p ≠ pos := by
        intro he
        exact hnd.1 (he ▸ (List.mem_map.mpr ⟨(pos, pc), h, by simp [he]⟩))
      simp [findPiece, hne, ih hnd.2 h]

theorem removeKey_of_findPiece_none {fs : List (Position × Piece)} {pos : Position}
    (h : findPiece fs pos = none) : removeKey fs pos = fs := by
  induction fs with
  | nil => rfl
  | cons e rest ih =>
    obtain ⟨p, pc⟩ := e
    by_cases hp : p = pos
    · simp [findPiece, hp] at h
    · simp [findPiece, hp] at h
      simp [removeKey, hp, List.filter_cons]
      have := ih h
      simpa [removeKey] using this

theorem removeKey_keys_sublist (fs : List (Position × Piece)) (pos : Position) :
    ((removeKey fs pos).map Prod.fst).Sublist (fs.map Prod.fst) :=
  List.Sublist.map _ (List.filter_sublist fs)

theorem findPiece_removeKey (fs : List (Position × Piece)) (pos q : Position) (hq : q ≠ pos) :
    findPiece (removeKey fs pos) q = findPiece fs q := by
  induction fs with
  | nil => rfl
  | cons e rest ih =>
    obtain ⟨p, pc⟩ := e
    by_cases hp : p = pos
    · subst hp
      have hpq : ¬ p = q := fun h => hq h.symm
      have h1 : removeKey ((p, pc) :: rest) p = removeKey rest p := by
        simp [removeKey, List.filter_cons]
      rw [h1, ih]
      simp [findPiece, hpq]
    · have h1 : removeKey ((p, pc) :: rest) pos = (p, pc) :: removeKey rest pos := by
        simp [removeKey, List.filter_cons, hp]
      rw [h1]
      by_cases hpq : p = q
      · simp [findPiece, hpq]
      · simp [findPiece, hpq, ih]

theorem findPiece_append (fs gs : List (Position × Piece)) (pos : Position) :
    findPiece (fs ++ gs) pos =
      match findPiece fs pos with
      | some pc => some pc
      | none => findPiece gs pos := by
  induction fs with
  | nil => simp [findPiece]
  | cons e rest ih =>
    obtain ⟨p, pc⟩ := e
    by_cases hp : p = pos <;> simp [findPiece, hp, ih]

/-! ### C6: executing on a frozen state -/

/-- C6: for every frozen GameState and every action, execute fails with the
IllegalMutation error and the state is left completely unchanged (board
occupancy, piece counts, placed-item counts and turn owner are exactly as
before, because the frozen check precedes every mutation). -/
theorem c6_frozen_execute_fails_unchanged (s : GameState) (a : Action)
    (h : s.frozen = true) : s.executeM a = (some ExecErr.illegalMutation, s) := by
  unfold GameState.executeM
  simp [h]

/-- Witness for C6 at a concrete frozen state and action. -/
theorem c6_frozen_execute_fails_unchanged_witness :
    ((GameState.init 4).freeze.frozen = true) ∧
      (GameState.init 4).freeze.executeM (Action.place 0 ⟨0, 0⟩ none) =
        (some ExecErr.illegalMutation, (GameState.init 4).freeze) :=
  ⟨rfl, c6_frozen_execute_fails_unchanged _ _ rfl⟩

/-! ### C7: symmetry of is_linked_to and agreement with neighbors_of -/

/-- Bounded boolean form of C7 over the valid positions of a design. -/
def checkLinkedNeighbors (d : BoardDesign) : Bool :=
  (iter_fields d).all fun p =>
    (iter_fields d).all fun q =>
      (is_linked_to d p q == is_linked_to d q p) &&
        (decide (q ∈ neighbors_of d p) == is_linked_to d p q)

/-- C7: for sides in {3,4} and either extended flag, over all valid board
positions, is_linked_to is symmetric and neighbors_of(p) yields exactly the
valid positions q with is_linked_to(p,q). -/
theorem c7_linked_symm_and_neighbors (sides : Nat) (extended : Bool)
    (hs : sides = 3 ∨ sides = 4)
    (p : Position) (hp : p ∈ iter_fields ⟨sides, extended⟩)
    (q : Position) (hq : q ∈ iter_fields ⟨sides, extended⟩) :
    is_linked_to ⟨sides, extended⟩ p q = is_linked_to ⟨sides, extended⟩ q p ∧
      (q ∈ neighbors_of ⟨sides, extended⟩ p ↔ is_linked_to ⟨sides, extended⟩ p q = true) := by
  have hchk : checkLinkedNeighbors ⟨sides, extended⟩ = true := by
    rcases hs with h | h <;> subst h <;> rcases extended with _ | _ <;> decide
  have h2 := List.all_eq_true.mp ((List.all_eq_true.mp hchk) p hp) q hq
  rw [Bool.and_eq_true, beq_iff_eq, beq_iff_eq] at h2
  refine ⟨h2.1, ?_⟩
  constructor
  · intro hmem
    rw [← h2.2]
    exact decide_eq_true hmem
  · intro hl
    exact of_decide_eq_true (h2.2.symm ▸ hl)

/-- Witness for C7 at a concrete configuration and pair of positions. -/
theorem c7_linked_symm_and_neighbors_witness :
    ((3 : Nat) = 3 ∨ (3 : Nat) = 4) ∧
      ((⟨0, 0⟩ : Position) ∈ iter_fields ⟨3, false⟩) ∧
      ((⟨0, 1⟩ : Position) ∈ iter_fields ⟨3, false⟩) ∧
      (is_linked_to ⟨3, false⟩ ⟨0, 0⟩ ⟨0, 1⟩ = is_linked_to ⟨3, false⟩ ⟨0, 1⟩ ⟨0, 0⟩ ∧
        ((⟨0, 1⟩ : Position) ∈ neighbors_of ⟨3, false⟩ ⟨0, 0⟩ ↔
          is_linked_to ⟨3, false⟩ ⟨0, 0⟩ ⟨0, 1⟩ = true)) :=
  ⟨Or.inl rfl, by decide, by decide,
    c7_linked_symm_and_neighbors 3 false (Or.inl rfl) ⟨0, 0⟩ (by decide) ⟨0, 1⟩ (by decide)⟩

/-! ### C5: the incremental piece counts agree with the live occupancy -/

/-- The live number of pieces of a player actually present in the dict. -/
def liveCount (b : GameBoard) (pid : PlayerID) : Nat :=
  (b.fields.filter fun e => decide (e.2.playerID = pid)).length

/-- A fresh GameBoard(design): empty occupancy, counts [0, 0]. -/
def GameBoard.mkInit (design : BoardDesign) : GameBoard :=
  { design := design, fields := [], count0 := 0, count1 := 0 }

/-- A board mutation from the GameBoard API. -/
inductive BoardOp where
  | place (pos : Position) (piece : Piece)
  | move (start stop : Position)
  | jump (start stop : Position)
  | remove (pos : Position)
  deriving DecidableEq, Repr

/-- One successful GameBoard mutation (`none` = the call's assert fired). -/
def applyOp (b : GameBoard) : BoardOp → Option GameBoard
  | .place pos piece => b.place pos piece
  | .move start stop => b.move start stop
  | .jump start stop => b.jump start stop
  | .remove pos => some (b.remove pos).1

/-- A finite sequence of successful GameBoard mutations. -/
def applyOps (b : GameBoard) : List BoardOp → Option GameBoard
  | [] => some b
  | op :: rest =>
    match applyOp b op with
    | none => none
    | some b1 => applyOps b1 rest

/-- The invariant maintained by the board: unique keys and incremental
counts equal to the live counts. -/
def CountInv (b : GameBoard) : Prop :=
  (b.fields.map Prod.fst).Nodup ∧ ∀ pid, b.count pid = (liveCount b pid : Int)

theorem count_incCount (b : GameBoard) (pid q : PlayerID) :
    (b.incCount pid).count q = b.count q + (if pid = q then 1 else 0) := by
  fin_cases pid <;> fin_cases q <;>
    simp [GameBoard.incCount, GameBoard.count]

theorem count_decCount (b : GameBoard) (pid q : PlayerID) :
    (b.decCount pid).count q = b.count q - (if pid = q then 1 else 0) := by
  fin_cases pid <;> fin_cases q <;>
    simp [GameBoard.decCount, GameBoard.count]

theorem count_eq_of_fields_eq {b b' : GameBoard} (h : b'.count0 = b.count0)
    (h1 : b'.count1 = b.count1) (q : PlayerID) : b'.count q = b.count q := by
  fin_cases q <;> simp [GameBoard.count, h, h1]

theorem incCount_fields (b : GameBoard) (pid : PlayerID) :
    (b.incCount pid).fields = b.fields := by
  unfold GameBoard.incCount
  split <;> rfl

theorem decCount_fields (b : GameBoard) (pid : PlayerID) :
    (b.decCount pid).fields = b.fields := by
  unfold GameBoard.decCount
  split <;> rfl

theorem count_setFields (b : GameBoard) (f : List (Position × Piece)) (q : PlayerID) :
    ({ b with fields := f } : GameBoard).count q = b.count q := rfl

theorem filter_removeKey_length {fs : List (Position × Piece)} {pos : Position} {pc : Piece}
    (hnd : (fs.map Prod.fst).Nodup) (h : findPiece fs pos = some pc)
    (P : Position × Piece → Bool) :
    ((removeKey fs pos).filter P).length + (if P (pos, pc) then 1 else 0) =
      (fs.filter P).length := by
  induction fs with
  | nil => simp [findPiece] at h
  | cons e rest ih =>
    obtain ⟨p, x⟩ := e
    simp only [List.map_cons, List.nodup_cons] at hnd
    by_cases hp : p = pos
    · have hx : some x = some pc := by rw [← h]; simp [findPiece, hp]
      have hx2 : x = pc := Option.some.inj hx
      have hnone : findPiece rest pos = none :=
        (findPiece_eq_none_iff rest pos).mpr (hp ▸ hnd.1)
      have hstep : removeKey ((p, x) :: rest) pos = removeKey rest pos := by
        simp [removeKey, List.filter_cons, hp]
      have hrk : removeKey ((p, x) :: rest) pos = rest :=
        hstep.trans (removeKey_of_findPiece_none hnone)
      rw [hrk, List.filter_cons, ← hp, ← hx2]
      by_cases hP : P (p, x) <;> simp [hP]
    · have h2 : findPiece rest pos = some pc := by
        rw [← h]; simp [findPiece, hp]
      have hrk : removeKey ((p, x) :: rest) pos = (p, x) :: removeKey rest pos := by
        simp [removeKey, List.filter_cons, hp]
      rw [hrk, List.filter_cons, List.filter_cons]
      have hih := ih hnd.2 h2
      by_cases hP : P (p, x) <;> simp [hP] <;> omega

theorem countInv_place {b b' : GameBoard} {pos : Position} {piece : Piece}
    (hinv : CountInv b) (h : b.place pos piece = some b') : CountInv b' := by
  unfold GameBoard.place at h
  by_cases hocc : (findPiece b.fields pos).isSome
  · simp [hocc] at h
  · rw [if_neg hocc] at h
    have hb : b' = GameBoard.incCount { b with fields := b.fields ++ [(pos, piece)] }
        piece.playerID := (Option.some.inj h).symm
    have hnone : findPiece b.fields pos = none := Option.not_isSome_iff_eq_none.mp hocc
    have hnotmem : pos ∉ b.fields.map Prod.fst := (findPiece_eq_none_iff _ _).mp hnone
    have hfields : b'.fields = b.fields ++ [(pos, piece)] := by
      rw [hb, incCount_fields]
    constructor
    · rw [hfields, List.map_append]
      refine List.Nodup.append hinv.1 (by simp) ?_
      intro a ha hmem
      have ha2 : a = pos := by simpa using hmem
      exact hnotmem (ha2 ▸ ha)
    · intro q
      have hcq : b'.count q = b.count q + (if piece.playerID = q then 1 else 0) := by
        rw [hb, count_incCount, count_setFields]
      rw [hcq, hinv.2 q]
      unfold liveCount
      rw [hfields, List.filter_append]
      by_cases hq : piece.playerID = q <;> simp [hq]

theorem countInv_jump {b b' : GameBoard} {start stop : Position}
    (hinv : CountInv b) (h : b.jump start stop = some b') : CountInv b' := by
  unfold GameBoard.jump at h
  by_cases hocc : (findPiece b.fields stop).isSome
  · simp [hocc] at h
  · rw [if_neg hocc] at h
    cases hfp : findPiece b.fields start with
    | none => rw [hfp] at h; simp at h
    | some pc =>
      rw [hfp] at h
      have hb : b' = { b with fields := removeKey b.fields start ++ [(stop, pc)] } :=
        (Option.some.inj h).symm
      have hstopnone : findPiece b.fields stop = none := Option.not_isSome_iff_eq_none.mp hocc
      have hstopnotmem : stop ∉ b.fields.map Prod.fst := (findPiece_eq_none_iff _ _).mp hstopnone
      have hrknd : ((removeKey b.fields start).map Prod.fst).Nodup :=
        (removeKey_keys_sublist b.fields start).nodup hinv.1
      have hstopnotrk : stop ∉ (removeKey b.fields start).map Prod.fst := fun hmem =>
        hstopnotmem ((removeKey_keys_sublist b.fields start).mem hmem)
      constructor
      · rw [hb]
        show ((removeKey b.fields start ++ [(stop, pc)]).map Prod.fst).Nodup
        rw [List.map_append]
        refine List.Nodup.append hrknd (by simp) ?_
        intro a ha hmem
        have ha2 : a = stop := by simpa using hmem
        exact hstopnotrk (ha2 ▸ ha)
      · intro q
        have hcq : b'.count q = b.count q := by rw [hb, count_setFields]
        rw [hcq, hinv.2 q]
        unfold liveCount
        rw [hb]
        show _ = ((((removeKey b.fields start ++ [(stop, pc)])).filter _).length : Int)
        rw [List.filter_append]
        have hkey := filter_removeKey_length hinv.1 hfp
          (fun e => decide (e.2.playerID = q))
        by_cases hq : pc.playerID = q <;> simp [hq] at hkey ⊢ <;> omega

theorem remove_fst_some {b : GameBoard} {pos : Position} {pc : Piece}
    (hfp : findPiece b.fields pos = some pc) :
    (b.remove pos).1 =
      GameBoard.decCount { b with fields := removeKey b.fields pos } pc.playerID := by
  unfold GameBoard.remove
  rw [hfp]

theorem remove_fst_none {b : GameBoard} {pos : Position}
    (hfp : findPiece b.fields pos = none) : (b.remove pos).1 = b := by
  unfold GameBoard.remove
  rw [hfp]

theorem countInv_remove {b : GameBoard} (pos : Position)
    (hinv : CountInv b) : CountInv (b.remove pos).1 := by
  cases hfp : findPiece b.fields pos with
  | none => rw [remove_fst_none hfp]; exact hinv
  | some pc =>
    rw [remove_fst_some hfp]
    have hfe : (GameBoard.decCount { b with fields := removeKey b.fields pos }
        pc.playerID).fields = removeKey b.fields pos := by
      rw [decCount_fields]
    constructor
    · rw [hfe]
      exact (removeKey_keys_sublist b.fields pos).nodup hinv.1
    · intro q
      rw [count_decCount, count_setFields, hinv.2 q]
      unfold liveCount
      rw [hfe]
      have hkey := filter_removeKey_length hinv.1 hfp (fun e => decide (e.2.playerID = q))
      by_cases hq : pc.playerID = q <;> simp [hq] at hkey ⊢ <;> omega

theorem countInv_applyOp {b b' : GameBoard} {op : BoardOp}
    (hinv : CountInv b) (h : applyOp b op = some b') : CountInv b' := by
  cases op with
  | place pos piece => exact countInv_place hinv h
  | move start stop =>
    simp only [applyOp, GameBoard.move] at h
    by_cases hl : is_linked_to b.design start stop
    · rw [if_pos hl] at h
      exact countInv_jump hinv h
    · simp [hl] at h
  | jump start stop => exact countInv_jump hinv h
  | remove pos =>
    unfold applyOp at h
    simp only [Option.some.injEq] at h
    exact h ▸ countInv_remove pos hinv

theorem countInv_applyOps {b b' : GameBoard} {ops : List BoardOp}
    (hinv : CountInv b) (h : applyOps b ops = some b') : CountInv b' := by
  induction ops generalizing b with
  | nil => unfold applyOps at h; simp at h; exact h ▸ hinv
  | cons op rest ih =>
    unfold applyOps at h
    cases hop : applyOp b op with
    | none => rw [hop] at h; simp at h
    | some b1 =>
      rw [hop] at h
      exact ih (countInv_applyOp hinv hop) h

/-- C5: starting from a fresh GameBoard, after any finite sequence of
successful place / move / jump / remove operations, board.count(p) equals
the number of positions occupied in fields by a piece owned by p. -/
theorem c5_count_matches_occupancy (design : BoardDesign) (ops : List BoardOp)
    (b : GameBoard) (h : applyOps (GameBoard.mkInit design) ops = some b)
    (p : PlayerID) : b.count p = (liveCount b p : Int) := by
  have hinit : CountInv (GameBoard.mkInit design) := by
    constructor
    · simp [GameBoard.mkInit]
    · intro pid
      fin_cases pid <;> simp [GameBoard.mkInit, GameBoard.count, liveCount]
  exact (countInv_applyOps hinit h).2 p

/-- Concrete sequence of board operations exercising C5. -/
def c5Ops : List BoardOp :=
  [BoardOp.place ⟨0, 0⟩ ⟨0⟩, BoardOp.place ⟨0, 1⟩ ⟨1⟩,
   BoardOp.move ⟨0, 1⟩ ⟨0, 2⟩, BoardOp.jump ⟨0, 0⟩ ⟨2, 5⟩,
   BoardOp.remove ⟨0, 2⟩]

/-- The board those operations yield. -/
def c5Board : GameBoard :=
  { design := ⟨4, false⟩, fields := [(⟨2, 5⟩, ⟨0⟩)], count0 := 1, count1 := 0 }

/-- Witness for C5: a concrete sequence of operations on the 4-sided board. -/
theorem c5_count_matches_occupancy_witness :
    applyOps (GameBoard.mkInit ⟨4, false⟩) c5Ops = some c5Board ∧
      c5Board.count 0 = (liveCount c5Board 0 : Int) :=
  ⟨by decide, c5_count_matches_occupancy ⟨4, false⟩ c5Ops c5Board (by decide) 0⟩

/-! ### Combinations and enumeration lemmas -/

theorem combinations_length {α : Type} (k : Nat) (l : List α) :
    (combinations k l).length = Nat.choose l.length k := by
  induction l generalizing k with
  | nil => cases k <;> simp [combinations]
  | cons x xs ih =>
    cases k with
    | zero => simp [combinations]
    | succ k =>
      simp only [combinations, List.length_append, List.length_map, ih,
        List.length_cons, Nat.choose_succ_succ]

theorem mem_combinations_sublist {α : Type} {k : Nat} {l c : List α}
    (h : c ∈ combinations k l) : c.Sublist l ∧ c.length = k := by
  induction l generalizing k c with
  | nil =>
    cases k with
    | zero =>
      simp [combinations] at h
      subst h
      exact ⟨List.Sublist.refl _, rfl⟩
    | succ k => simp [combinations] at h
  | cons x xs ih =>
    cases k with
    | zero =>
      simp [combinations] at h
      subst h
      exact ⟨List.nil_sublist _, rfl⟩
    | succ k =>
      simp only [combinations, List.mem_append, List.mem_map] at h
      rcases h with ⟨c1, hc1, rfl⟩ | h
      · obtain ⟨hs, hl⟩ := ih hc1
        exact ⟨List.Sublist.cons₂ x hs, by simp [hl]⟩
      · obtain ⟨hs, hl⟩ := ih h
        exact ⟨hs.cons x, hl⟩

theorem combinations_nodup {α : Type} [DecidableEq α] {l : List α} (hnd : l.Nodup)
    (k : Nat) : (combinations k l).Nodup := by
  induction l generalizing k with
  | nil => cases k <;> simp [combinations]
  | cons x xs ih =>
    cases k with
    | zero => simp [combinations]
    | succ k =>
      simp only [List.nodup_cons] at hnd
      simp only [combinations]
      refine List.Nodup.append ?_ (ih hnd.2 (k + 1)) ?_
      · refine List.Nodup.map ?_ (ih hnd.2 k)
        intro a b hab
        injection hab
      · intro c hc1 hc2
        obtain ⟨c1, hc1m, rfl⟩ := List.mem_map.mp hc1
        have hs := (mem_combinations_sublist hc2).1
        exact hnd.1 (hs.subset (List.mem_cons_self x c1))

theorem combinations_map {α β : Type} (g : α → β) (k : Nat) (l : List α) :
    combinations k (l.map g) = (combinations k l).map (List.map g) := by
  induction l generalizing k with
  | nil => cases k <;> simp [combinations]
  | cons x xs ih =>
    cases k with
    | zero => simp [combinations]
    | succ k =>
      simp only [List.map_cons, combinations, ih, List.map_append, List.map_map]
      congr 1

theorem combinations_eq_nil_of_lt {α : Type} {k : Nat} {l : List α}
    (h : l.length < k) : combinations k l = [] := by
  have hlen := combinations_length k l
  rw [Nat.choose_eq_zero_of_lt h] at hlen
  exact List.length_eq_zero.mp hlen

theorem mem_iter_fields_iff (d : BoardDesign) (p : Position) :
    p ∈ iter_fields d ↔ ValidPos d p := by
  obtain ⟨pr, pi⟩ := p
  unfold iter_fields ValidPos ringSize
  simp only [List.mem_flatMap, List.mem_map, List.mem_range]
  constructor
  · rintro ⟨r, hr, i, hi, he⟩
    have h1 : (r : Int) = pr := congrArg Position.ring he
    have h2 : (i : Int) = pi := congrArg Position.index he
    omega
  · rintro ⟨h1, h2, h3, h4⟩
    refine ⟨pr.toNat, by omega, pi.toNat, by omega, ?_⟩
    simp only [Position.mk.injEq]
    omega

theorem iter_fields_nodup (d : BoardDesign) : (iter_fields d).Nodup := by
  unfold iter_fields
  rw [List.nodup_flatMap]
  constructor
  · intro r _
    refine List.Nodup.map ?_ (List.nodup_range _)
    intro a b hab
    injection hab with h1 h2
    omega
  · refine List.Pairwise.imp_of_mem ?_ (List.pairwise_lt_range 3)
    intro r1 r2 h1 h2 hlt
    show List.Disjoint _ _
    intro p hp1 hp2
    obtain ⟨i1, hm1, he1⟩ := List.mem_map.mp hp1
    obtain ⟨i2, hm2, he2⟩ := List.mem_map.mp hp2
    rw [← he2] at he1
    injection he1 with h3 h4
    omega

theorem iter_empty_nodup (b : GameBoard) : b.iter_empty.Nodup :=
  (List.filter_sublist _).nodup (iter_fields_nodup b.design)

/-- Selector for the Place actions aimed at a given destination. -/
def isPlaceAt (dest : Position) : Action → Bool
  | .place _ p _ => decide (p = dest)
  | _ => false

theorem filter_flatMap_single {α β : Type} (P : β → Bool) (L : List α) (f : α → List β)
    (dest : α) (hdest : dest ∈ L) (hnd : L.Nodup)
    (htrue : ∀ b ∈ f dest, P b = true)
    (hfalse : ∀ a ∈ L, a ≠ dest → ∀ b ∈ f a, P b = false) :
    (L.flatMap f).filter P = f dest := by
  induction L with
  | nil => simp at hdest
  | cons x rest ih =>
    simp only [List.nodup_cons] at hnd
    rw [List.flatMap_cons, List.filter_append]
    rcases List.mem_cons.mp hdest with rfl | hmem
    · have h1 : (f dest).filter P = f dest := List.filter_eq_self.mpr htrue
      have h2 : (rest.flatMap f).filter P = [] := by
        rw [List.filter_eq_nil_iff]
        intro b hb
        obtain ⟨a, ha, hba⟩ := List.mem_flatMap.mp hb
        have hne : a ≠ dest := fun he => hnd.1 (he ▸ ha)
        simp [hfalse a (List.mem_cons_of_mem _ ha) hne b hba]
      rw [h1, h2, List.append_nil]
    · have hx : x ≠ dest := fun he => hnd.1 (he ▸ hmem)
      have h1 : (f x).filter P = [] := by
        rw [List.filter_eq_nil_iff]
        intro b hb
        simp [hfalse x (List.mem_cons_self _ _) hx b hb]
      rw [h1, List.nil_append]
      exact ih hmem hnd.2 (fun a ha => hfalse a (List.mem_cons_of_mem _ ha))

theorem calc_available_attacks_sublist (s : GameState) (player : PlayerID) :
    (s.calc_available_attacks player).Sublist s.board.fields := by
  unfold GameState.calc_available_attacks
  split
  · exact List.filter_sublist _
  · split
    · exact List.filter_sublist _
    · exact List.nil_sublist _

theorem attack_positions_nodup {s : GameState} (hwf : s.WF) (player : PlayerID) :
    ((s.calc_available_attacks player).map Prod.fst).Nodup :=
  ((calc_available_attacks_sublist s player).map Prod.fst).nodup hwf.1

theorem mem_calc_available_attacks {s : GameState} {player : PlayerID}
    {e : Position × Piece} (h : e ∈ s.calc_available_attacks player) :
    e ∈ s.board.fields ∧ e.2.playerID = otherPlayer player := by
  unfold GameState.calc_available_attacks at h
  split at h
  · unfold GameBoard.iter_pieces_outside_mill at h
    have := List.mem_filter.mp h
    refine ⟨this.1, ?_⟩
    have h2 := this.2
    simp only [Bool.and_eq_true, decide_eq_true_eq] at h2
    exact h2.1
  · split at h
    · unfold GameBoard.iter_pieces_inside_mill at h
      have := List.mem_filter.mp h
      refine ⟨this.1, ?_⟩
      have h2 := this.2
      simp only [Bool.and_eq_true, decide_eq_true_eq] at h2
      exact h2.1
    · simp at h

/-- C4: in the placing phase, for an empty destination completing exactly
k >= 1 mills, the enumeration emits exactly one Place action per k-element
combination of the opponent's capturable positions: C(m,k) distinct
actions, and none at all when m < k. -/
theorem c4_capture_combination_count (s : GameState) (hwf : s.WF) (dest : Position)
    (hphase : s.placedOf s.player_turn < s.max_placed_items)
    (hdest : dest ∈ s.board.iter_empty)
    (hk : s.board.iter_ready_mills s.player_turn dest ≠ []) :
    s.calc_available_actions.filter (isPlaceAt dest) =
      (combinations (s.board.iter_ready_mills s.player_turn dest).length
          ((s.calc_available_attacks s.player_turn).map Prod.fst)).map
        (fun ps => Action.place s.player_turn dest (some ps)) ∧
      (s.calc_available_actions.filter (isPlaceAt dest)).length =
        Nat.choose (s.calc_available_attacks s.player_turn).length
          (s.board.iter_ready_mills s.player_turn dest).length ∧
      (s.calc_available_actions.filter (isPlaceAt dest)).Nodup ∧
      ((s.calc_available_attacks s.player_turn).length <
          (s.board.iter_ready_mills s.player_turn dest).length →
        s.calc_available_actions.filter (isPlaceAt dest) = []) := by
  have hbatch : s.calc_available_actions.filter (isPlaceAt dest) =
      enhance_with_attacks s.board s.player_turn
        (s.calc_available_attacks s.player_turn) dest
        (fun atk => Action.place s.player_turn dest atk) := by
    have hcalc : s.calc_available_actions =
        s.board.iter_empty.flatMap fun empty_pos =>
          enhance_with_attacks s.board s.player_turn
            (s.calc_available_attacks s.player_turn) empty_pos
            (fun atk => Action.place s.player_turn empty_pos atk) := by
      unfold GameState.calc_available_actions
      rw [if_pos hphase]
    rw [hcalc]
    refine filter_flatMap_single _ _ _ dest hdest (iter_empty_nodup s.board) ?_ ?_
    · intro b hb
      unfold enhance_with_attacks at hb
      rw [if_pos hk] at hb
      obtain ⟨comb, hcm, rfl⟩ := List.mem_map.mp hb
      simp [isPlaceAt]
    · intro a ha hne b hb
      unfold enhance_with_attacks at hb
      by_cases hm : s.board.iter_ready_mills s.player_turn a ≠ []
      · rw [if_pos hm] at hb
        obtain ⟨comb, hcm, rfl⟩ := List.mem_map.mp hb
        simp [isPlaceAt, hne]
      · rw [if_neg hm] at hb
        simp only [List.mem_singleton] at hb
        subst hb
        simp [isPlaceAt, hne]
  have hbatch2 : s.calc_available_actions.filter (isPlaceAt dest) =
      (combinations (s.board.iter_ready_mills s.player_turn dest).length
          ((s.calc_available_attacks s.player_turn).map Prod.fst)).map
        (fun ps => Action.place s.player_turn dest (some ps)) := by
    rw [hbatch]
    unfold enhance_with_attacks
    rw [if_pos hk, combinations_map]
    rw [List.map_map]
    rfl
  refine ⟨hbatch2, ?_, ?_, ?_⟩
  · rw [hbatch2, List.length_map, combinations_length, List.length_map]
  · rw [hbatch2]
    refine List.Nodup.map ?_ (combinations_nodup (attack_positions_nodup hwf _) _)
    intro a b hab
    simp only [Action.place.injEq] at hab
    exact Option.some.inj hab.2.2
  · intro hlt
    rw [hbatch2, combinations_eq_nil_of_lt (by rw [List.length_map]; exact hlt)]
    rfl

/-- Concrete placing-phase state for the C4 witness: player 0 about to
close the line (0,0)-(0,1)-(0,2) at (0,2); player 1 has two capturable
pieces outside mills. -/
def c4State : GameState :=
  { placed0 := 2, placed1 := 2, player_turn := 0,
    board := { design := { sides := 4, extended := false },
               fields := [(⟨0, 0⟩, ⟨0⟩), (⟨0, 1⟩, ⟨0⟩), (⟨1, 1⟩, ⟨1⟩), (⟨2, 2⟩, ⟨1⟩)],
               count0 := 2, count1 := 2 },
    max_placed_items := 9, frozen := false }

/-- Witness for C4: at c4State and destination (0,2), k = 1 and m = 2, so
exactly C(2,1) = 2 distinct capture actions are generated. -/
theorem c4_capture_combination_count_witness :
    c4State.WF ∧
      (c4State.calc_available_actions.filter (isPlaceAt ⟨0, 2⟩)).length =
        Nat.choose (c4State.calc_available_attacks c4State.player_turn).length
          (c4State.board.iter_ready_mills c4State.player_turn ⟨0, 2⟩).length :=
  ⟨by decide,
    (c4_capture_combination_count c4State (by decide) ⟨0, 2⟩ (by decide) (by decide)
      (by decide)).2.1⟩

/-! ### C1: captures are credited from "ready mills" even when the move
itself vacates a cell of the credited line, so no mill actually completes -/

/-- A reachable-shaped jump-phase state: player 0 has exactly the three
pieces (0,0), (0,1), (1,1) with all nine pieces placed, player 1 has one
piece at (2,5). -/
def c1State : GameState :=
  { placed0 := 9, placed1 := 9, player_turn := 0,
    board := { design := { sides := 4, extended := false },
               fields := [(⟨0, 0⟩, ⟨0⟩), (⟨0, 1⟩, ⟨0⟩), (⟨1, 1⟩, ⟨0⟩), (⟨2, 5⟩, ⟨1⟩)],
               count0 := 3, count1 := 1 },
    max_placed_items := 9, frozen := false }

/-- The jump from (0,1) to (0,2) that the engine credits with a capture. -/
def c1Action : Action := Action.jump 0 ⟨0, 1⟩ ⟨0, 2⟩ (some [⟨2, 5⟩])

/-- C1 evaluated at the failing input: the enumeration yields a Jump
carrying one capture, the mover has no mill before the move, executing the
action succeeds, and the mover still has no mill afterwards (the credited
line (0,0)-(0,1)-(0,2) lost its (0,1) piece to the jump itself), so zero
mills were newly completed yet one capture was attached. -/
theorem c1_jump_capture_without_mill :
    c1Action ∈ c1State.calc_available_actions ∧
      (attacksList c1Action).length = 1 ∧
      c1State.board.iter_mills 0 = [] ∧
      (c1State.executeM c1Action).1 = none ∧
      ((c1State.executeM c1Action).2).board.iter_mills 0 = [] := by
  refine ⟨?_, ?_, ?_, ?_, ?_⟩ <;> decide

/-! ### C3: every generated action executes successfully on an unfrozen
state; frozen states and wrong-player actions fail -/

theorem otherPlayer_ne (pid : PlayerID) : otherPlayer pid ≠ pid := by
  fin_cases pid <;> decide

theorem findPiece_append_left {fs gs : List (Position × Piece)} {pos : Position} {pc : Piece}
    (h : findPiece fs pos = some pc) : findPiece (fs ++ gs) pos = some pc := by
  rw [findPiece_append, h]

theorem incPlaced_board (s : GameState) (pid : PlayerID) :
    (s.incPlaced pid).board = s.board := by
  unfold GameState.incPlaced
  split <;> rfl

theorem remove_snd_some {b : GameBoard} {pos : Position} {pc : Piece}
    (hfp : findPiece b.fields pos = some pc) : (b.remove pos).2 = some pc := by
  unfold GameBoard.remove
  rw [hfp]

theorem remove_fst_fields {b : GameBoard} {pos : Position} {pc : Piece}
    (hfp : findPiece b.fields pos = some pc) :
    (b.remove pos).1.fields = removeKey b.fields pos := by
  rw [remove_fst_some hfp, decCount_fields]

theorem runAttacks_none {pid : PlayerID} {ps : List Position} (hnd : ps.Nodup)
    {b1 : GameBoard}
    (hocc : ∀ p ∈ ps, ∃ pc : Piece, findPiece b1.fields p = some pc ∧ pc.playerID ≠ pid) :
    (runAttacks pid b1 ps).1 = none := by
  induction ps generalizing b1 with
  | nil => rfl
  | cons p rest ih =>
    obtain ⟨pc, hfind, hne⟩ := hocc p (List.mem_cons_self _ _)
    simp only [List.nodup_cons] at hnd
    unfold runAttacks
    rw [remove_snd_some hfind]
    show (if pc.playerID = pid then (some ExecErr.assertionFailed, (b1.remove p).1)
        else runAttacks pid (b1.remove p).1 rest).1 = none
    rw [if_neg hne]
    refine ih hnd.2 ?_
    intro q hq
    obtain ⟨pcq, hfq, hneq⟩ := hocc q (List.mem_cons_of_mem _ hq)
    refine ⟨pcq, ?_, hneq⟩
    rw [remove_fst_fields hfind,
      findPiece_removeKey _ _ _ (fun he => hnd.1 (by rw [he] at hq; exact hq)), hfq]

theorem executeM_eq_tail {s : GameState} {a : Action} {s1 : GameState}
    (hfr : s.frozen = false) (hpid : a.playerID = s.player_turn)
    (hstep : executeStep s a = (none, s1)) :
    s.executeM a = executeTail s1 a.playerID (attacksList a) := by
  unfold GameState.executeM
  rw [if_neg (by simp [hfr]), if_neg (by simp [hpid]), hstep]

theorem executeTail_none {s1 : GameState} {pid : PlayerID} {atks : List Position}
    (h : (runAttacks pid s1.board atks).1 = none) :
    (executeTail s1 pid atks).1 = none := by
  unfold executeTail
  by_cases hl : atks ≠ []
  · rw [if_pos hl]
    rcases hra : runAttacks pid s1.board atks with ⟨e2, b2⟩
    rw [hra] at h
    have h2 : e2 = none := h
    subst h2
    rfl
  · rw [if_neg hl]

theorem executeM_none_route {s : GameState} (hfr : s.frozen = false) {a : Action}
    (hpid : a.playerID = s.player_turn) {s1 : GameState}
    (hstep : executeStep s a = (none, s1))
    (hatk : (runAttacks a.playerID s1.board (attacksList a)).1 = none) :
    (s.executeM a).1 = none := by
  rw [executeM_eq_tail hfr hpid hstep]
  exact executeTail_none hatk

/-- The board produced by GameBoard.place at an empty position. -/
def placedBoard (s : GameState) (pos : Position) : GameBoard :=
  GameBoard.incCount { s.board with fields := s.board.fields ++ [(pos, ⟨s.player_turn⟩)] }
    s.player_turn

/-- The state after the placement part of execute (before captures). -/
def placeResult (s : GameState) (pos : Position) : GameState :=
  GameState.incPlaced { s with board := placedBoard s pos } s.player_turn

/-- The board produced by GameBoard.jump / the jump step of move. -/
def movedBoard (s : GameState) (start stop : Position) (pc0 : Piece) : GameBoard :=
  { s.board with fields := removeKey s.board.fields start ++ [(stop, pc0)] }

/-- The state after the move/jump part of execute (before captures). -/
def moveResult (s : GameState) (start stop : Position) (pc0 : Piece) : GameState :=
  { s with board := movedBoard s start stop pc0 }

theorem placeResult_fields (s : GameState) (pos : Position) :
    (placeResult s pos).board.fields =
      s.board.fields ++ [(pos, (⟨s.player_turn⟩ : Piece))] := by
  unfold placeResult placedBoard
  rw [incPlaced_board, incCount_fields]

theorem executeStep_place {s : GameState} {pos : Position} {atk : Option (List Position)}
    (hph : s.placedOf s.player_turn < s.max_placed_items)
    (hemp : findPiece s.board.fields pos = none) :
    executeStep s (Action.place s.player_turn pos atk) = (none, placeResult s pos) := by
  simp only [executeStep, Action.playerID]
  rw [if_pos hph]
  unfold GameBoard.place
  rw [hemp]
  rfl

theorem executeStep_move {s : GameState} {start stop : Position} {pc0 : Piece}
    {atk : Option (List Position)}
    (hfind : findPiece s.board.fields start = some pc0)
    (hpc : pc0.playerID = s.player_turn)
    (hlink : is_linked_to s.board.design start stop = true)
    (hemp : findPiece s.board.fields stop = none) :
    executeStep s (Action.move s.player_turn start stop atk) =
      (none, moveResult s start stop pc0) := by
  simp only [executeStep, Action.playerID]
  rw [hfind]
  show (if pc0.playerID = s.player_turn then
      match s.board.move start stop with
      | none => (some ExecErr.illegalMutation, s)
      | some b1 => (none, { s with board := b1 })
    else (some ExecErr.assertionFailed, s)) = (none, moveResult s start stop pc0)
  rw [if_pos hpc]
  unfold GameBoard.move
  rw [if_pos hlink]
  unfold GameBoard.jump
  rw [hemp, hfind]
  rfl

theorem executeStep_jump {s : GameState} {start stop : Position} {pc0 : Piece}
    {atk : Option (List Position)}
    (hfind : findPiece s.board.fields start = some pc0)
    (hpc : pc0.playerID = s.player_turn)
    (hemp : findPiece s.board.fields stop = none) :
    executeStep s (Action.jump s.player_turn start stop atk) =
      (none, moveResult s start stop pc0) := by
  simp only [executeStep, Action.playerID]
  rw [hfind]
  show (if pc0.playerID = s.player_turn then
      match s.board.jump start stop with
      | none => (some ExecErr.illegalMutation, s)
      | some b1 => (none, { s with board := b1 })
    else (some ExecErr.assertionFailed, s)) = (none, moveResult s start stop pc0)
  rw [if_pos hpc]
  unfold GameBoard.jump
  rw [hemp, hfind]
  rfl

theorem mem_iter_empty_find {b : GameBoard} {pos : Position} (h : pos ∈ b.iter_empty) :
    findPiece b.fields pos = none := by
  unfold GameBoard.iter_empty at h
  have h2 := (List.mem_filter.mp h).2
  unfold GameBoard.is_empty at h2
  exact Option.isNone_iff_eq_none.mp h2

theorem mem_iter_pieces_find {b : GameBoard} (hnd : (b.fields.map Prod.fst).Nodup)
    {pid : PlayerID} {e : Position × Piece} (h : e ∈ b.iter_pieces pid) :
    findPiece b.fields e.1 = some e.2 ∧ e.2.playerID = pid ∧ e ∈ b.fields := by
  unfold GameBoard.iter_pieces at h
  have h2 := List.mem_filter.mp h
  refine ⟨findPiece_eq_some_of_mem hnd ?_, by simpa using h2.2, h2.1⟩
  exact h2.1

theorem mem_iter_available_moves {b : GameBoard} {pos q : Position}
    (h : q ∈ b.iter_available_moves pos) :
    q ∈ neighbors_of b.design pos ∧ findPiece b.fields q = none := by
  unfold GameBoard.iter_available_moves at h
  have h2 := List.mem_filter.mp h
  exact ⟨h2.1, Option.isNone_iff_eq_none.mp h2.2⟩

theorem mem_enhance {board : GameBoard} {pid : PlayerID}
    {attacks : List (Position × Piece)} {pos : Position}
    {mk : Option (List Position) → Action} {a : Action}
    (h : a ∈ enhance_with_attacks board pid attacks pos mk) :
    a = mk none ∨ ∃ comb ∈ combinations (board.iter_ready_mills pid pos).length attacks,
      a = mk (some (comb.map Prod.fst)) := by
  unfold enhance_with_attacks at h
  by_cases hm : board.iter_ready_mills pid pos ≠ []
  · rw [if_pos hm] at h
    obtain ⟨comb, hcm, rfl⟩ := List.mem_map.mp h
    exact Or.inr ⟨comb, hcm, rfl⟩
  · rw [if_neg hm] at h
    simp only [List.mem_singleton] at h
    exact Or.inl h

theorem linked_ring_step {d : BoardDesign} (hs : 3 ≤ d.sides) {r i j : Int}
    (hi0 : 0 ≤ i) (hi1 : i < ringSize d)
    (hj : j = (i - 1) % ringSize d ∨ j = (i + 1) % ringSize d) :
    is_linked_to d ⟨r, i⟩ ⟨r, j⟩ = true := by
  have hrs : ringSize d = 2 * (d.sides : Int) := rfl
  have hrspos : (0 : Int) < ringSize d := by rw [hrs]; omega
  have hneg : (-1 : Int) % ringSize d = ringSize d - 1 := by
    have h1 : (-1 + ringSize d * 1) % ringSize d = (-1) % ringSize d :=
      Int.add_mul_emod_self_left (-1) (ringSize d) 1
    have h2 : (-1 + ringSize d * 1) = ringSize d - 1 := by ring
    rw [h2] at h1
    rw [← h1]
    exact Int.emod_eq_of_lt (by omega) (by omega)
  have hjval : j = i - 1 ∨ j = i + 1 ∨ (i = 0 ∧ j = ringSize d - 1) ∨
      (i = ringSize d - 1 ∧ j = 0) := by
    rcases hj with hj | hj
    · by_cases hz : i = 0
      · subst hz
        simp only [zero_sub] at hj
        exact Or.inr (Or.inr (Or.inl ⟨rfl, hj.trans hneg⟩))
      · left
        rw [hj]
        exact Int.emod_eq_of_lt (by omega) (by omega)
    · by_cases hz : i = ringSize d - 1
      · right; right; right
        refine ⟨hz, ?_⟩
        rw [hj, hz]
        have h3 : ringSize d - 1 + 1 = ringSize d := by ring
        rw [h3, Int.emod_self]
      · right; left
        rw [hj]
        exact Int.emod_eq_of_lt (by omega) (by omega)
  unfold is_linked_to
  rw [if_pos rfl]
  rw [decide_eq_true_eq]
  have habs : (i - j).natAbs = 1 ∨ (i - j).natAbs = 2 * d.sides - 1 := by
    rw [hrs] at hjval
    rcases hjval with hj | hj | ⟨h1, h2⟩ | ⟨h1, h2⟩ <;> omega
  rcases habs with habs | habs
  · rw [habs]
    exact Nat.mod_eq_of_lt (by omega)
  · rw [habs]
    have h3 : 2 * d.sides - 1 = (2 * d.sides - 2) + 1 := by omega
    rw [h3, Nat.add_mod_left]
    exact Nat.mod_eq_of_lt (by omega)

theorem linked_cross {d : BoardDesign} {r r2 i : Int}
    (hg : (d.extended || decide (i % 2 = 1)) = true)
    (hr : (r - r2).natAbs = 1) (hne : r ≠ r2) :
    is_linked_to d ⟨r, i⟩ ⟨r2, i⟩ = true := by
  unfold is_linked_to
  rw [if_neg hne, if_pos rfl]
  simp [hg, hr]

theorem is_linked_to_of_mem_neighbors {d : BoardDesign} (hs : 3 ≤ d.sides) {p q : Position}
    (hp : ValidPos d p) (h : q ∈ neighbors_of d p) : is_linked_to d p q = true := by
  obtain ⟨hr0, hr1, hi0, hi1⟩ := hp
  unfold neighbors_of at h
  rw [List.mem_append] at h
  rcases h with h | h
  · rcases List.mem_cons.mp h with rfl | h
    · exact linked_ring_step hs hi0 hi1 (Or.inl rfl)
    · rcases List.mem_cons.mp h with rfl | h
      · exact linked_ring_step hs hi0 hi1 (Or.inr rfl)
      · simp at h
  · by_cases hg : (d.extended || decide (p.index % 2 = 1)) = true
    · rw [if_pos hg] at h
      rw [List.mem_append] at h
      rcases h with h | h
      · by_cases hpr : p.ring > 0
        · rw [if_pos hpr] at h
          simp only [List.mem_singleton] at h
          subst h
          exact linked_cross hg (by omega) (by omega)
        · rw [if_neg hpr] at h
          simp at h
      · by_cases hpr : p.ring < 2
        · rw [if_pos hpr] at h
          simp only [List.mem_singleton] at h
          subst h
          exact linked_cross hg (by omega) (by omega)
        · rw [if_neg hpr] at h
          simp at h
    · rw [if_neg hg] at h
      simp at h

theorem attacks_occ_after {s : GameState} (hwf : s.WF) {comb : List (Position × Piece)}
    (hsub : comb.Sublist (s.calc_available_attacks s.player_turn))
    {newfields : List (Position × Piece)}
    (hpres : ∀ p pc, findPiece s.board.fields p = some pc →
      pc.playerID = otherPlayer s.player_turn → findPiece newfields p = some pc) :
    ∀ p ∈ comb.map Prod.fst, ∃ pc : Piece,
      findPiece newfields p = some pc ∧ pc.playerID ≠ s.player_turn := by
  intro p hp
  obtain ⟨e, hem, hefst⟩ := List.mem_map.mp hp
  have he2 := mem_calc_available_attacks (hsub.subset hem)
  have hfind : findPiece s.board.fields e.1 = some e.2 :=
    findPiece_eq_some_of_mem hwf.1 he2.1
  refine ⟨e.2, ?_, ?_⟩
  · rw [← hefst]
    exact hpres e.1 e.2 hfind he2.2
  · rw [he2.2]
    exact otherPlayer_ne s.player_turn

theorem attack_list_nodup {s : GameState} (hwf : s.WF) {k : Nat}
    {comb : List (Position × Piece)}
    (hcm : comb ∈ combinations k (s.calc_available_attacks s.player_turn)) :
    (comb.map Prod.fst).Nodup :=
  ((mem_combinations_sublist hcm).1.map Prod.fst).nodup
    (attack_positions_nodup hwf s.player_turn)

theorem exec_generated_action_succeeds {s : GameState} (hwf : s.WF) (hfr : s.frozen = false)
    {a : Action} (ha : a ∈ s.calc_available_actions) : (s.executeM a).1 = none := by
  unfold GameState.calc_available_actions at ha
  by_cases hp1 : s.placedOf s.player_turn < s.max_placed_items
  · rw [if_pos hp1] at ha
    obtain ⟨pos, hposmem, hbatch⟩ := List.mem_flatMap.mp ha
    have hemp : findPiece s.board.fields pos = none := mem_iter_empty_find hposmem
    have hpres : ∀ p pc, findPiece s.board.fields p = some pc →
        pc.playerID = otherPlayer s.player_turn →
        findPiece (s.board.fields ++ [(pos, (⟨s.player_turn⟩ : Piece))]) p = some pc :=
      fun p pc hf _ => findPiece_append_left hf
    rcases mem_enhance hbatch with rfl | ⟨comb, hcm, rfl⟩
    · exact executeM_none_route hfr rfl (executeStep_place hp1 hemp) rfl
    · refine executeM_none_route hfr rfl (executeStep_place hp1 hemp) ?_
      refine runAttacks_none (attack_list_nodup hwf hcm) ?_
      rw [placeResult_fields]
      exact attacks_occ_after hwf (mem_combinations_sublist hcm).1 hpres
  · rw [if_neg hp1] at ha
    by_cases hp2 : s.board.count s.player_turn > 3
    · rw [if_pos hp2] at ha
      obtain ⟨pp, hppmem, ha2⟩ := List.mem_flatMap.mp ha
      obtain ⟨stop, hstopmem, hbatch⟩ := List.mem_flatMap.mp ha2
      obtain ⟨hfind0, hpc0, hmem0⟩ := mem_iter_pieces_find hwf.1 hppmem
      obtain ⟨hnbr, hempstop⟩ := mem_iter_available_moves hstopmem
      have hvalid0 : ValidPos s.board.design pp.1 := hwf.2.2 pp hmem0
      have hlink := is_linked_to_of_mem_neighbors hwf.2.1 hvalid0 hnbr
      have hpres : ∀ p pc, findPiece s.board.fields p = some pc →
          pc.playerID = otherPlayer s.player_turn →
          findPiece (removeKey s.board.fields pp.1 ++ [(stop, pp.2)]) p = some pc := by
        intro p pc hf hop
        have hps : p ≠ pp.1 := by
          intro he
          rw [he, hfind0] at hf
          have hpe : pp.2 = pc := Option.some.inj hf
          rw [← hpe, hpc0] at hop
          exact otherPlayer_ne s.player_turn hop.symm
        refine findPiece_append_left ?_
        rw [findPiece_removeKey _ _ _ hps, hf]
      rcases mem_enhance hbatch with rfl | ⟨comb, hcm, rfl⟩
      · exact executeM_none_route hfr rfl (executeStep_move hfind0 hpc0 hlink hempstop) rfl
      · refine executeM_none_route hfr rfl (executeStep_move hfind0 hpc0 hlink hempstop) ?_
        refine runAttacks_none (attack_list_nodup hwf hcm) ?_
        exact attacks_occ_after hwf (mem_combinations_sublist hcm).1 hpres
    · rw [if_neg hp2] at ha
      by_cases hp3 : s.board.count s.player_turn = 3
      · rw [if_pos hp3] at ha
        obtain ⟨pp, hppmem, ha2⟩ := List.mem_flatMap.mp ha
        obtain ⟨stop, hstopmem, hbatch⟩ := List.mem_flatMap.mp ha2
        obtain ⟨hfind0, hpc0, hmem0⟩ := mem_iter_pieces_find hwf.1 hppmem
        have hempstop : findPiece s.board.fields stop = none := mem_iter_empty_find hstopmem
        have hpres : ∀ p pc, findPiece s.board.fields p = some pc →
            pc.playerID = otherPlayer s.player_turn →
            findPiece (removeKey s.board.fields pp.1 ++ [(stop, pp.2)]) p = some pc := by
          intro p pc hf hop
          have hps : p ≠ pp.1 := by
            intro he
            rw [he, hfind0] at hf
            have hpe : pp.2 = pc := Option.some.inj hf
            rw [← hpe, hpc0] at hop
            exact otherPlayer_ne s.player_turn hop.symm
          refine findPiece_append_left ?_
          rw [findPiece_removeKey _ _ _ hps, hf]
        rcases mem_enhance hbatch with rfl | ⟨comb, hcm, rfl⟩
        · exact executeM_none_route hfr rfl (executeStep_jump hfind0 hpc0 hempstop) rfl
        · refine executeM_none_route hfr rfl (executeStep_jump hfind0 hpc0 hempstop) ?_
          refine runAttacks_none (attack_list_nodup hwf hcm) ?_
          exact attacks_occ_after hwf (mem_combinations_sublist hcm).1 hpres
      · rw [if_neg hp3] at ha
        simp at ha

theorem executeM_frozen {s : GameState} (h : s.frozen = true) (a : Action) :
    s.executeM a = (some ExecErr.illegalMutation, s) := by
  unfold GameState.executeM
  simp [h]

theorem executeM_wrong_player {s : GameState} (hfr : s.frozen = false) {a : Action}
    (h : a.playerID ≠ s.player_turn) :
    (s.executeM a).1 = some ExecErr.illegalAction := by
  unfold GameState.executeM
  rw [if_neg (by simp [hfr]), if_pos h]

/-- C3: on a non-frozen well-formed state, every action produced by the
legal-action enumeration for the side to move executes successfully (no
internal invariant fires and the resulting state is returned); execute
fails with an invariant error when the state is frozen, and with a
wrong-player error when the action's playerID is not the side to move. -/
theorem c3_generated_actions_execute (s : GameState) (hwf : s.WF) (a : Action) :
    (s.frozen = false → a ∈ s.calc_available_actions → (s.executeM a).1 = none) ∧
      (s.frozen = true → (s.executeM a).1 = some ExecErr.illegalMutation) ∧
      (s.frozen = false → a.playerID ≠ s.player_turn →
        (s.executeM a).1 = some ExecErr.illegalAction) :=
  ⟨fun hfr ha => exec_generated_action_succeeds hwf hfr ha,
   fun hf => by rw [executeM_frozen hf],
   fun hfr hp => executeM_wrong_player hfr hp⟩

/-- Witness for C3 at c4State and a concrete generated placement. -/
theorem c3_generated_actions_execute_witness :
    c4State.WF ∧ c4State.frozen = false ∧
      Action.place 0 ⟨1, 0⟩ none ∈ c4State.calc_available_actions ∧
      (c4State.executeM (Action.place 0 ⟨1, 0⟩ none)).1 = none :=
  ⟨by decide, rfl, by decide,
    (c3_generated_actions_execute c4State (by decide) (Action.place 0 ⟨1, 0⟩ none)).1
      rfl (by decide)⟩

/-! ### C10: clone is an unfrozen copy on which generated actions run -/

/-- C10: clone returns a state whose frozen flag is False while board,
piece counts, placed-item counts, turn owner and maximum placeable count
are all equal to the original's; consequently the actions enumerated on
the clone execute successfully (as MCTS expansion and simulation do with
frozen node states). -/
theorem c10_clone_unfrozen_copy (s : GameState) (hwf : s.WF) :
    s.clone.frozen = false ∧ s.clone.board = s.board ∧ s.clone.placed0 = s.placed0 ∧
      s.clone.placed1 = s.placed1 ∧ s.clone.player_turn = s.player_turn ∧
      s.clone.max_placed_items = s.max_placed_items ∧
      ∀ a ∈ s.clone.calc_available_actions, (s.clone.executeM a).1 = none := by
  refine ⟨rfl, rfl, rfl, rfl, rfl, rfl, ?_⟩
  intro a ha
  have hwfc : s.clone.WF := hwf
  exact exec_generated_action_succeeds hwfc rfl ha

/-- The frozen state used for the C10 witness. -/
def c10State : GameState := c4State.freeze

/-- Witness for C10: a frozen concrete state whose clone is unfrozen and
on which a generated action executes successfully. -/
theorem c10_clone_unfrozen_copy_witness :
    c10State.WF ∧ c10State.frozen = true ∧ c10State.clone.frozen = false ∧
      (c10State.clone.executeM (Action.place 0 ⟨1, 0⟩ none)).1 = none :=
  ⟨by decide, rfl, (c10_clone_unfrozen_copy c10State (by decide)).1,
    (c10_clone_unfrozen_copy c10State (by decide)).2.2.2.2.2.2
      (Action.place 0 ⟨1, 0⟩ none) (by decide)⟩

/-! ### C8: get_third_in_line against iter_lines and iter_lines_of -/

theorem positionExt {p q : Position} (h1 : p.ring = q.ring) (h2 : p.index = q.index) :
    p = q := by
  cases p
  cases q
  simp_all

/-- Membership of a position in a line triple. -/
def tripleHas (t : Position × Position × Position) (p : Position) : Prop :=
  p = t.1 ∨ p = t.2.1 ∨ p = t.2.2

instance (t : Position × Position × Position) (p : Position) : Decidable (tripleHas t p) := by
  unfold tripleHas
  infer_instance

/-- Two distinct positions lying on a common line of the design. -/
def OnCommonLine (d : BoardDesign) (a b : Position) : Prop :=
  a ≠ b ∧ ∃ t ∈ iter_lines d, tripleHas t a ∧ tripleHas t b

instance (d : BoardDesign) (a b : Position) : Decidable (OnCommonLine d a b) := by
  unfold OnCommonLine
  infer_instance

theorem get_third_symm (d : BoardDesign) (a b : Position) :
    get_third_in_line d a b = get_third_in_line d b a := by
  unfold get_third_in_line
  by_cases h1 : a.ring = b.ring ∧ a.index ≠ b.index
  · have h1s : b.ring = a.ring ∧ b.index ≠ a.index :=
      ⟨h1.1.symm, fun he => h1.2 he.symm⟩
    rw [if_pos h1, if_pos h1s, min_comm b.index a.index, max_comm b.index a.index, h1.1]
  · have h1s : ¬(b.ring = a.ring ∧ b.index ≠ a.index) :=
      fun hc => h1 ⟨hc.1.symm, fun he => hc.2 he.symm⟩
    rw [if_neg h1, if_neg h1s]
    by_cases h2 : a.ring ≠ b.ring ∧ a.index = b.index
    · have h2s : b.ring ≠ a.ring ∧ b.index = a.index :=
        ⟨fun he => h2.1 he.symm, h2.2.symm⟩
      rw [if_pos h2, if_pos h2s, min_comm b.ring a.ring, max_comm b.ring a.ring, h2.2]
    · have h2s : ¬(b.ring ≠ a.ring ∧ b.index = a.index) :=
        fun hc => h2 ⟨fun he => hc.1 he.symm, hc.2.symm⟩
      rw [if_neg h2, if_neg h2s]

theorem ringLine_mem {d : BoardDesign} {r side : Nat} (hr : r < 3) (hside : side < d.sides) :
    ((⟨(r : Int), 2*(side : Int)⟩ : Position), (⟨(r : Int), 2*(side : Int)+1⟩ : Position),
      (⟨(r : Int), (2*(side : Int)+2) % ringSize d⟩ : Position)) ∈ iter_lines d := by
  unfold iter_lines
  refine List.mem_append_left _ ?_
  rw [List.mem_flatMap]
  refine ⟨r, List.mem_range.mpr hr, ?_⟩
  rw [List.mem_map]
  exact ⟨side, List.mem_range.mpr hside, rfl⟩

theorem crossLine_mem {d : BoardDesign} {idx : Nat} (hidx : idx < 2*d.sides)
    (hg : (d.extended || decide (idx % 2 = 1)) = true) :
    ((⟨0, (idx : Int)⟩ : Position), (⟨1, (idx : Int)⟩ : Position),
      (⟨2, (idx : Int)⟩ : Position)) ∈ iter_lines d := by
  unfold iter_lines
  refine List.mem_append_right _ ?_
  rw [List.mem_filterMap]
  refine ⟨idx, List.mem_range.mpr hidx, ?_⟩
  rw [if_pos hg]

theorem mem_iter_lines_elim {d : BoardDesign} {t : Position × Position × Position}
    (h : t ∈ iter_lines d) :
    (∃ r : Nat, r < 3 ∧ ∃ side : Nat, side < d.sides ∧
      t = (⟨(r : Int), 2*(side : Int)⟩, ⟨(r : Int), 2*(side : Int)+1⟩,
        ⟨(r : Int), (2*(side : Int)+2) % ringSize d⟩)) ∨
    (∃ idx : Nat, idx < 2*d.sides ∧ (d.extended || decide (idx % 2 = 1)) = true ∧
      t = (⟨0, (idx : Int)⟩, ⟨1, (idx : Int)⟩, ⟨2, (idx : Int)⟩)) := by
  unfold iter_lines at h
  rw [List.mem_append] at h
  rcases h with h | h
  · rw [List.mem_flatMap] at h
    obtain ⟨r, hr, h2⟩ := h
    rw [List.mem_map] at h2
    obtain ⟨side, hside, he⟩ := h2
    exact Or.inl ⟨r, List.mem_range.mp hr, side, List.mem_range.mp hside, he.symm⟩
  · rw [List.mem_filterMap] at h
    obtain ⟨idx, hidx, he⟩ := h
    by_cases hg : (d.extended || decide (idx % 2 = 1)) = true
    · rw [if_pos hg] at he
      exact Or.inr ⟨idx, List.mem_range.mp hidx, hg, (Option.some.inj he).symm⟩
    · rw [if_neg hg] at he
      exact absurd he (by simp)

theorem emod_id {x rs : Int} (h0 : 0 ≤ x) (h1 : x < rs) : x % rs = x :=
  Int.emod_eq_of_lt h0 h1

theorem emod_neg_case {x rs : Int} (h0 : -rs ≤ x) (h1 : x < 0) : x % rs = x + rs := by
  have h2 : (x + rs * 1) % rs = x % rs := Int.add_mul_emod_self_left x rs 1
  rw [mul_one] at h2
  rw [← h2]
  exact Int.emod_eq_of_lt (by omega) (by omega)

theorem get_third_mk_ring (d : BoardDesign) (r x y : Int) (hxy : x ≠ y) :
    get_third_in_line d ⟨r, x⟩ ⟨r, y⟩ = thirdOnRing d r (min x y) (max x y) := by
  unfold get_third_in_line
  exact if_pos ⟨rfl, hxy⟩

theorem get_third_mk_cross (d : BoardDesign) (r1 r2 x : Int) (hne : r1 ≠ r2) :
    get_third_in_line d ⟨r1, x⟩ ⟨r2, x⟩ =
      if (d.extended || decide (x % 2 = 1)) = true then
        thirdAcrossRings (min r1 r2) (max r1 r2) x
      else none := by
  unfold get_third_in_line
  have h1 : ¬((⟨r1, x⟩ : Position).ring = (⟨r2, x⟩ : Position).ring ∧
      (⟨r1, x⟩ : Position).index ≠ (⟨r2, x⟩ : Position).index) := fun hc => hne hc.1
  rw [if_neg h1]
  exact if_pos ⟨hne, rfl⟩

theorem get_third_ring_12 {d : BoardDesign} (hs : 3 ≤ d.sides) {r : Int} (side : Nat)
    (hside : side < d.sides) :
    get_third_in_line d ⟨r, 2*(side : Int)⟩ ⟨r, 2*(side : Int)+1⟩ =
      some ⟨r, (2*(side : Int)+2) % ringSize d⟩ := by
  have hrs : ringSize d = 2*(d.sides : Int) := rfl
  rw [get_third_mk_ring d r _ _ (by omega)]
  unfold thirdOnRing
  rw [min_eq_left (by omega), max_eq_right (by omega), if_neg (by omega)]
  unfold thirdOnRingOrdered
  rw [if_pos (by omega), if_pos (by omega)]

theorem get_third_ring_13 {d : BoardDesign} (hs : 3 ≤ d.sides) {r : Int} (side : Nat)
    (hside : side < d.sides) :
    get_third_in_line d ⟨r, 2*(side : Int)⟩ ⟨r, (2*(side : Int)+2) % ringSize d⟩ =
      some ⟨r, 2*(side : Int)+1⟩ := by
  have hrs : ringSize d = 2*(d.sides : Int) := rfl
  by_cases hwrap : 2*(side : Int) + 2 = ringSize d
  · have hj : (2*(side : Int)+2) % ringSize d = 0 := by rw [hwrap, Int.emod_self]
    rw [hj, get_third_mk_ring d r _ _ (by omega)]
    unfold thirdOnRing
    rw [min_eq_right (by omega), max_eq_left (by omega), if_pos (by omega)]
    unfold thirdOnRingOrdered
    rw [if_neg (by omega), if_pos (by omega), if_pos (by omega)]
    rw [emod_id (by omega) (by omega)]
  · have hj : (2*(side : Int)+2) % ringSize d = 2*(side : Int)+2 :=
      emod_id (by omega) (by omega)
    rw [hj, get_third_mk_ring d r _ _ (by omega)]
    unfold thirdOnRing
    rw [min_eq_left (by omega), max_eq_right (by omega), if_neg (by omega)]
    unfold thirdOnRingOrdered
    rw [if_neg (by omega), if_pos (by omega), if_pos (by omega)]
    rw [emod_id (by omega) (by omega)]

theorem get_third_ring_23 {d : BoardDesign} (hs : 3 ≤ d.sides) {r : Int} (side : Nat)
    (hside : side < d.sides) :
    get_third_in_line d ⟨r, 2*(side : Int)+1⟩ ⟨r, (2*(side : Int)+2) % ringSize d⟩ =
      some ⟨r, 2*(side : Int)⟩ := by
  have hrs : ringSize d = 2*(d.sides : Int) := rfl
  by_cases hwrap : 2*(side : Int) + 2 = ringSize d
  · have hj : (2*(side : Int)+2) % ringSize d = 0 := by rw [hwrap, Int.emod_self]
    rw [hj, get_third_mk_ring d r _ _ (by omega)]
    unfold thirdOnRing
    rw [min_eq_right (by omega), max_eq_left (by omega), if_pos (by omega)]
    unfold thirdOnRingOrdered
    rw [if_pos (by omega), if_neg (by omega),
      show (2*(side : Int)+1-1) = 2*(side : Int) from by omega,
      emod_id (by omega) (by omega)]
  · have hj : (2*(side : Int)+2) % ringSize d = 2*(side : Int)+2 :=
      emod_id (by omega) (by omega)
    rw [hj, get_third_mk_ring d r _ _ (by omega)]
    unfold thirdOnRing
    rw [min_eq_left (by omega), max_eq_right (by omega), if_neg (by omega)]
    unfold thirdOnRingOrdered
    rw [if_pos (by omega), if_neg (by omega),
      show (2*(side : Int)+1-1) = 2*(side : Int) from by omega,
      emod_id (by omega) (by omega)]

theorem get_third_cross_12 {d : BoardDesign} {idx : Int}
    (hg : (d.extended || decide (idx % 2 = 1)) = true) :
    get_third_in_line d ⟨0, idx⟩ ⟨1, idx⟩ = some ⟨2, idx⟩ := by
  rw [get_third_mk_cross d 0 1 idx (by decide), if_pos hg]
  unfold thirdAcrossRings
  rw [min_eq_left (by decide), max_eq_right (by decide), if_pos rfl, if_pos rfl]

theorem get_third_cross_13 {d : BoardDesign} {idx : Int}
    (hg : (d.extended || decide (idx % 2 = 1)) = true) :
    get_third_in_line d ⟨0, idx⟩ ⟨2, idx⟩ = some ⟨1, idx⟩ := by
  rw [get_third_mk_cross d 0 2 idx (by decide), if_pos hg]
  unfold thirdAcrossRings
  rw [min_eq_left (by decide), max_eq_right (by decide), if_pos rfl, if_neg (by decide)]

theorem get_third_cross_23 {d : BoardDesign} {idx : Int}
    (hg : (d.extended || decide (idx % 2 = 1)) = true) :
    get_third_in_line d ⟨1, idx⟩ ⟨2, idx⟩ = some ⟨0, idx⟩ := by
  rw [get_third_mk_cross d 1 2 idx (by decide), if_pos hg]
  unfold thirdAcrossRings
  rw [min_eq_left (by decide), max_eq_right (by decide), if_neg (by decide)]

/-- Guard transfer from the Nat parity of iter_lines to the Int parity used
by get_third_in_line and iter_lines_of. -/
theorem guard_cast {d : BoardDesign} {idx : Nat}
    (hg : (d.extended || decide (idx % 2 = 1)) = true) :
    (d.extended || decide (((idx : Nat) : Int) % 2 = 1)) = true := by
  have hg2 : d.extended = true ∨ idx % 2 = 1 := by simpa using hg
  rcases hg2 with h | h
  · simp [h]
  · have h3 : ((idx : Nat) : Int) % 2 = 1 := by omega
    simp [h3]

theorem line_thirds {d : BoardDesign} (hs : 3 ≤ d.sides)
    {t : Position × Position × Position} (ht : t ∈ iter_lines d) :
    get_third_in_line d t.1 t.2.1 = some t.2.2 ∧
      get_third_in_line d t.1 t.2.2 = some t.2.1 ∧
      get_third_in_line d t.2.1 t.2.2 = some t.1 := by
  rcases mem_iter_lines_elim ht with ⟨r, hr, side, hside, rfl⟩ | ⟨idx, hidx, hg, rfl⟩
  · exact ⟨get_third_ring_12 hs side hside, get_third_ring_13 hs side hside,
      get_third_ring_23 hs side hside⟩
  · exact ⟨get_third_cross_12 (guard_cast hg), get_third_cross_13 (guard_cast hg),
      get_third_cross_23 (guard_cast hg)⟩

theorem third_of_common_line {d : BoardDesign} (hs : 3 ≤ d.sides) {a b : Position}
    (h : OnCommonLine d a b) :
    ∃ c, get_third_in_line d a b = some c ∧ get_third_in_line d b a = some c ∧
      ∃ t ∈ iter_lines d, tripleHas t a ∧ tripleHas t b ∧ tripleHas t c := by
  obtain ⟨hne, t, ht, hta, htb⟩ := h
  have h3 := line_thirds hs ht
  rcases hta with rfl | rfl | rfl <;> rcases htb with rfl | rfl | rfl
  · exact absurd rfl hne
  · exact ⟨t.2.2, h3.1, (get_third_symm d t.2.1 t.1).trans h3.1, t, ht,
      Or.inl rfl, Or.inr (Or.inl rfl), Or.inr (Or.inr rfl)⟩
  · exact ⟨t.2.1, h3.2.1, (get_third_symm d t.2.2 t.1).trans h3.2.1, t, ht,
      Or.inl rfl, Or.inr (Or.inr rfl), Or.inr (Or.inl rfl)⟩
  · exact ⟨t.2.2, (get_third_symm d t.2.1 t.1).trans h3.1, h3.1, t, ht,
      Or.inr (Or.inl rfl), Or.inl rfl, Or.inr (Or.inr rfl)⟩
  · exact absurd rfl hne
  · exact ⟨t.1, h3.2.2, (get_third_symm d t.2.2 t.2.1).trans h3.2.2, t, ht,
      Or.inr (Or.inl rfl), Or.inr (Or.inr rfl), Or.inl rfl⟩
  · exact ⟨t.2.1, (get_third_symm d t.2.2 t.1).trans h3.2.1, h3.2.1, t, ht,
      Or.inr (Or.inr rfl), Or.inl rfl, Or.inr (Or.inl rfl)⟩
  · exact ⟨t.1, (get_third_symm d t.2.2 t.2.1).trans h3.2.2, h3.2.2, t, ht,
      Or.inr (Or.inr rfl), Or.inr (Or.inl rfl), Or.inl rfl⟩
  · exact absurd rfl hne

theorem ringLine_common {d : BoardDesign} {a b : Position}
    (hne : a ≠ b) (hr0 : 0 ≤ a.ring) (hr1 : a.ring < 3) (hring : a.ring = b.ring)
    (e : Nat) (he : e < d.sides)
    (haidx : a.index = 2*(e : Int) ∨ a.index = 2*(e : Int)+1 ∨
      a.index = (2*(e : Int)+2) % ringSize d)
    (hbidx : b.index = 2*(e : Int) ∨ b.index = 2*(e : Int)+1 ∨
      b.index = (2*(e : Int)+2) % ringSize d) :
    OnCommonLine d a b := by
  have hr3 : a.ring.toNat < 3 := by omega
  have hra : a.ring = ((a.ring.toNat : Nat) : Int) := by omega
  have hrb : b.ring = ((a.ring.toNat : Nat) : Int) := by omega
  refine ⟨hne, _, ringLine_mem hr3 he, ?_, ?_⟩
  · rcases haidx with h | h | h
    · exact Or.inl (positionExt hra h)
    · exact Or.inr (Or.inl (positionExt hra h))
    · exact Or.inr (Or.inr (positionExt hra h))
  · rcases hbidx with h | h | h
    · exact Or.inl (positionExt hrb h)
    · exact Or.inr (Or.inl (positionExt hrb h))
    · exact Or.inr (Or.inr (positionExt hrb h))

theorem crossLine_common {d : BoardDesign} {a b : Position} (hne : a ≠ b)
    (hidx : a.index = b.index) (hia0 : 0 ≤ a.index) (hia1 : a.index < ringSize d)
    (hg : (d.extended || decide (a.index.toNat % 2 = 1)) = true)
    (har0 : 0 ≤ a.ring) (har1 : a.ring < 3) (hbr0 : 0 ≤ b.ring) (hbr1 : b.ring < 3) :
    OnCommonLine d a b := by
  have hrs : ringSize d = 2*(d.sides : Int) := rfl
  have hmem : ((⟨0, (a.index.toNat : Int)⟩ : Position), (⟨1, (a.index.toNat : Int)⟩ : Position),
      (⟨2, (a.index.toNat : Int)⟩ : Position)) ∈ iter_lines d :=
    crossLine_mem (by omega) hg
  have hcast : ((a.index.toNat : Nat) : Int) = a.index := by omega
  refine ⟨hne, _, hmem, ?_, ?_⟩
  · rcases show a.ring = 0 ∨ a.ring = 1 ∨ a.ring = 2 by omega with h | h | h
    · exact Or.inl (positionExt h hcast.symm)
    · exact Or.inr (Or.inl (positionExt h hcast.symm))
    · exact Or.inr (Or.inr (positionExt h hcast.symm))
  · have hcb : b.index = ((a.index.toNat : Nat) : Int) := by omega
    rcases show b.ring = 0 ∨ b.ring = 1 ∨ b.ring = 2 by omega with h | h | h
    · exact Or.inl (positionExt h hcb)
    · exact Or.inr (Or.inl (positionExt h hcb))
    · exact Or.inr (Or.inr (positionExt h hcb))

theorem common_line_of_third_some {d : BoardDesign} (hs : 3 ≤ d.sides) {a b : Position}
    (ha : ValidPos d a) (hb : ValidPos d b) {c : Position}
    (h : get_third_in_line d a b = some c) : OnCommonLine d a b := by
  obtain ⟨har0, har1, hai0, hai1⟩ := ha
  obtain ⟨hbr0, hbr1, hbi0, hbi1⟩ := hb
  have hrs : ringSize d = 2*(d.sides : Int) := rfl
  unfold get_third_in_line at h
  by_cases h1 : a.ring = b.ring ∧ a.index ≠ b.index
  · rw [if_pos h1] at h
    have hne : a ≠ b := fun he => h1.2 (congrArg Position.index he)
    have hcase : (min a.index b.index = a.index ∧ max a.index b.index = b.index) ∨
        (min a.index b.index = b.index ∧ max a.index b.index = a.index) := by
      rcases le_total a.index b.index with hle | hle
      · exact Or.inl ⟨min_eq_left hle, max_eq_right hle⟩
      · exact Or.inr ⟨min_eq_right hle, max_eq_left hle⟩
    have hbnd : 0 ≤ min a.index b.index ∧ min a.index b.index < ringSize d ∧
        0 ≤ max a.index b.index ∧ max a.index b.index < ringSize d ∧
        min a.index b.index < max a.index b.index ∧
        (min a.index b.index = a.index ∨ min a.index b.index = b.index) ∧
        (max a.index b.index = a.index ∨ max a.index b.index = b.index) := by
      rcases hcase with ⟨he1, he2⟩ | ⟨he1, he2⟩ <;> rw [he1, he2] <;>
        refine ⟨by omega, by omega, by omega, by omega, ?_, by omega, by omega⟩ <;>
        · have := h1.2
          omega
    set a0 := min a.index b.index
    set b0 := max a.index b.index
    obtain ⟨h00, h01, h10, h11, h0lt, hmina, hmaxa⟩ := hbnd
    unfold thirdOnRing at h
    by_cases hswap : b0 - a0 > 2
    · rw [if_pos hswap] at h
      unfold thirdOnRingOrdered at h
      by_cases hd1 : a0 + ringSize d - b0 = 1
      · clear h
        have hmod : (2*((d.sides - 1 : Nat) : Int)+2) % ringSize d = 0 := by
          rw [show (2*((d.sides - 1 : Nat) : Int)+2) = ringSize d from by omega,
            Int.emod_self]
        refine ringLine_common hne har0 har1 h1.1 (d.sides - 1) (by omega) ?_ ?_ <;>
          rw [hmod] <;> rcases hcase with ⟨he1, he2⟩ | ⟨he1, he2⟩ <;> omega
      · rw [if_neg (by omega)] at h
        by_cases hd2 : a0 + ringSize d - b0 = 2
        · rw [if_pos (by omega)] at h
          by_cases hpar : b0 % 2 = 0
          · clear h
            have hmod : (2*((d.sides - 1 : Nat) : Int)+2) % ringSize d = 0 := by
              rw [show (2*((d.sides - 1 : Nat) : Int)+2) = ringSize d from by omega,
                Int.emod_self]
            refine ringLine_common hne har0 har1 h1.1 (d.sides - 1) (by omega) ?_ ?_ <;>
              rw [hmod] <;> rcases hcase with ⟨he1, he2⟩ | ⟨he1, he2⟩ <;> omega
          · rw [if_neg (by omega)] at h
            exact absurd h (by simp)
        · rw [if_neg (by omega)] at h
          exact absurd h (by simp)
    · rw [if_neg hswap] at h
      unfold thirdOnRingOrdered at h
      by_cases hd1 : b0 - a0 = 1
      · clear h
        by_cases hpar : a0 % 2 = 0
        · by_cases hbound : a0 + 2 = ringSize d
          · have hmod : (2*((a0.toNat / 2 : Nat) : Int)+2) % ringSize d = 0 := by
              rw [show (2*((a0.toNat / 2 : Nat) : Int)+2) = ringSize d from by omega,
                Int.emod_self]
            refine ringLine_common hne har0 har1 h1.1 (a0.toNat / 2) (by omega) ?_ ?_ <;>
              rw [hmod] <;> rcases hcase with ⟨he1, he2⟩ | ⟨he1, he2⟩ <;> omega
          · have hmod : (2*((a0.toNat / 2 : Nat) : Int)+2) % ringSize d =
                2*((a0.toNat / 2 : Nat) : Int)+2 := emod_id (by omega) (by omega)
            refine ringLine_common hne har0 har1 h1.1 (a0.toNat / 2) (by omega) ?_ ?_ <;>
              rw [hmod] <;> rcases hcase with ⟨he1, he2⟩ | ⟨he1, he2⟩ <;> omega
        · have hmod : (2*(((a0 - 1).toNat / 2 : Nat) : Int)+2) % ringSize d =
              2*((((a0 - 1).toNat / 2 : Nat)) : Int)+2 := emod_id (by omega) (by omega)
          refine ringLine_common hne har0 har1 h1.1 ((a0 - 1).toNat / 2) (by omega) ?_ ?_ <;>
            rw [hmod] <;> rcases hcase with ⟨he1, he2⟩ | ⟨he1, he2⟩ <;> omega
      · rw [if_neg (by omega)] at h
        by_cases hd2 : b0 - a0 = 2
        · rw [if_pos (by omega)] at h
          by_cases hpar : a0 % 2 = 0
          · clear h
            have hmod : (2*((a0.toNat / 2 : Nat) : Int)+2) % ringSize d =
                2*((a0.toNat / 2 : Nat) : Int)+2 := emod_id (by omega) (by omega)
            refine ringLine_common hne har0 har1 h1.1 (a0.toNat / 2) (by omega) ?_ ?_ <;>
              rw [hmod] <;> rcases hcase with ⟨he1, he2⟩ | ⟨he1, he2⟩ <;> omega
          · rw [if_neg (by omega)] at h
            exact absurd h (by simp)
        · rw [if_neg (by omega)] at h
          exact absurd h (by simp)
  · rw [if_neg h1] at h
    by_cases h2 : a.ring ≠ b.ring ∧ a.index = b.index
    · rw [if_pos h2] at h
      by_cases hg : (d.extended || decide (a.index % 2 = 1)) = true
      · have hgn : (d.extended || decide (a.index.toNat % 2 = 1)) = true := by
          have hor : d.extended = true ∨ a.index % 2 = 1 := by simpa using hg
          rcases hor with hh | hh
          · simp [hh]
          · have hh2 : a.index.toNat % 2 = 1 := by omega
            simp [hh2]
        exact crossLine_common (fun he => h2.1 (congrArg Position.ring he)) h2.2
          hai0 hai1 hgn har0 har1 hbr0 hbr1
      · rw [if_neg hg] at h
        exact absurd h (by simp)
    · rw [if_neg h2] at h
      exact absurd h (by simp)

theorem third_none_of_not_common {d : BoardDesign} (hs : 3 ≤ d.sides) {a b : Position}
    (ha : ValidPos d a) (hb : ValidPos d b)
    (h : ¬ OnCommonLine d a b) : get_third_in_line d a b = none := by
  cases hth : get_third_in_line d a b with
  | none => rfl
  | some c => exact absurd (common_line_of_third_some hs ha hb hth) h

theorem ne_of_index {p q : Position} (h : p.index ≠ q.index) : p ≠ q :=
  fun he => h (congrArg Position.index he)

theorem ne_of_ring {p q : Position} (h : p.ring ≠ q.ring) : p ≠ q :=
  fun he => h (congrArg Position.ring he)

theorem crossPair_mem_lines_of {d : BoardDesign} {pos : Position}
    (hg : (d.extended || decide (pos.index % 2 = 1)) = true) :
    ((⟨(pos.ring+1) % 3, pos.index⟩ : Position), (⟨(pos.ring+2) % 3, pos.index⟩ : Position))
      ∈ iter_lines_of d pos := by
  unfold iter_lines_of
  refine List.mem_append_left _ ?_
  rw [if_pos hg]
  exact List.mem_singleton.mpr rfl

theorem oddPair_mem_lines_of {d : BoardDesign} {pos : Position}
    (hodd : pos.index % 2 = 1) :
    ((⟨pos.ring, pos.index - 1⟩ : Position),
      (⟨pos.ring, (pos.index+1) % ringSize d⟩ : Position)) ∈ iter_lines_of d pos := by
  unfold iter_lines_of
  refine List.mem_append_right _ ?_
  rw [if_pos hodd]
  exact List.mem_singleton.mpr rfl

theorem evenPair1_mem_lines_of {d : BoardDesign} {pos : Position}
    (heven : ¬ pos.index % 2 = 1) :
    ((⟨pos.ring, (pos.index-1) % ringSize d⟩ : Position),
      (⟨pos.ring, (pos.index-2) % ringSize d⟩ : Position)) ∈ iter_lines_of d pos := by
  unfold iter_lines_of
  refine List.mem_append_right _ ?_
  rw [if_neg heven]
  exact List.mem_cons_self _ _

theorem evenPair2_mem_lines_of {d : BoardDesign} {pos : Position}
    (heven : ¬ pos.index % 2 = 1) :
    ((⟨pos.ring, (pos.index+1) % ringSize d⟩ : Position),
      (⟨pos.ring, (pos.index+2) % ringSize d⟩ : Position)) ∈ iter_lines_of d pos := by
  unfold iter_lines_of
  refine List.mem_append_right _ ?_
  rw [if_neg heven]
  exact List.mem_cons_of_mem _ (List.mem_cons_self _ _)

theorem mem_lines_of_elim {d : BoardDesign} {pos : Position} {pr : Position × Position}
    (h : pr ∈ iter_lines_of d pos) :
    ((d.extended || decide (pos.index % 2 = 1)) = true ∧
      pr = (⟨(pos.ring+1) % 3, pos.index⟩, ⟨(pos.ring+2) % 3, pos.index⟩)) ∨
    (pos.index % 2 = 1 ∧
      pr = (⟨pos.ring, pos.index - 1⟩, ⟨pos.ring, (pos.index+1) % ringSize d⟩)) ∨
    (¬ pos.index % 2 = 1 ∧
      (pr = (⟨pos.ring, (pos.index-1) % ringSize d⟩,
          ⟨pos.ring, (pos.index-2) % ringSize d⟩) ∨
        pr = (⟨pos.ring, (pos.index+1) % ringSize d⟩,
          ⟨pos.ring, (pos.index+2) % ringSize d⟩))) := by
  unfold iter_lines_of at h
  rw [List.mem_append] at h
  rcases h with h | h
  · by_cases hg : (d.extended || decide (pos.index % 2 = 1)) = true
    · rw [if_pos hg] at h
      exact Or.inl ⟨hg, List.mem_singleton.mp h⟩
    · rw [if_neg hg] at h
      simp at h
  · by_cases hodd : pos.index % 2 = 1
    · rw [if_pos hodd] at h
      exact Or.inr (Or.inl ⟨hodd, List.mem_singleton.mp h⟩)
    · rw [if_neg hodd] at h
      rcases List.mem_cons.mp h with h | h
      · exact Or.inr (Or.inr ⟨hodd, Or.inl h⟩)
      · exact Or.inr (Or.inr ⟨hodd, Or.inr (List.mem_singleton.mp h)⟩)


theorem lines_of_sound {d : BoardDesign} (hs : 3 ≤ d.sides) {pos : Position}
    (hv : ValidPos d pos) {pr : Position × Position} (hpr : pr ∈ iter_lines_of d pos) :
    ∃ t ∈ iter_lines d, tripleHas t pos ∧ tripleHas t pr.1 ∧ tripleHas t pr.2 := by
  obtain ⟨hr0, hr1, hi0, hi1⟩ := hv
  have hrs : ringSize d = 2*(d.sides : Int) := rfl
  rcases mem_lines_of_elim hpr with ⟨hg, rfl⟩ | ⟨hodd, rfl⟩ | ⟨heven, hpr2⟩
  · -- cross pair: the cross line at this index
    have hgn : (d.extended || decide (pos.index.toNat % 2 = 1)) = true := by
      have hor : d.extended = true ∨ pos.index % 2 = 1 := by simpa using hg
      rcases hor with hh | hh
      · simp [hh]
      · have hh2 : pos.index.toNat % 2 = 1 := by omega
        simp [hh2]
    have hidx : pos.index = ((pos.index.toNat : Nat) : Int) := by omega
    refine ⟨_, crossLine_mem (show pos.index.toNat < 2*d.sides by omega) hgn, ?_, ?_, ?_⟩
    · rcases show pos.ring = 0 ∨ pos.ring = 1 ∨ pos.ring = 2 by omega with hr | hr | hr
      · exact Or.inl (positionExt hr hidx)
      · exact Or.inr (Or.inl (positionExt hr hidx))
      · exact Or.inr (Or.inr (positionExt hr hidx))
    · rcases show pos.ring = 0 ∨ pos.ring = 1 ∨ pos.ring = 2 by omega with hr | hr | hr
      · exact Or.inr (Or.inl (positionExt (show (pos.ring+1) % 3 = 1 by omega) hidx))
      · exact Or.inr (Or.inr (positionExt (show (pos.ring+1) % 3 = 2 by omega) hidx))
      · exact Or.inl (positionExt (show (pos.ring+1) % 3 = 0 by omega) hidx)
    · rcases show pos.ring = 0 ∨ pos.ring = 1 ∨ pos.ring = 2 by omega with hr | hr | hr
      · exact Or.inr (Or.inr (positionExt (show (pos.ring+2) % 3 = 2 by omega) hidx))
      · exact Or.inl (positionExt (show (pos.ring+2) % 3 = 0 by omega) hidx)
      · exact Or.inr (Or.inl (positionExt (show (pos.ring+2) % 3 = 1 by omega) hidx))
  · -- odd index: the ring line starting one step back
    have hrr : pos.ring = ((pos.ring.toNat : Nat) : Int) := by omega
    have he : (pos.index - 1).toNat / 2 < d.sides := by omega
    have h2e : 2*((((pos.index - 1).toNat / 2 : Nat)) : Int) = pos.index - 1 := by omega
    have hb : pos.index = 2*((((pos.index - 1).toNat / 2 : Nat)) : Int)+1 := by omega
    have ha : pos.index - 1 = 2*((((pos.index - 1).toNat / 2 : Nat)) : Int) := by omega
    have hc : (pos.index+1) % ringSize d =
        (2*((((pos.index - 1).toNat / 2 : Nat)) : Int)+2) % ringSize d :=
      congrArg (fun z => z % ringSize d) (by omega)
    refine ⟨_, ringLine_mem (show pos.ring.toNat < 3 by omega) he, ?_, ?_, ?_⟩
    · exact Or.inr (Or.inl (positionExt hrr hb))
    · exact Or.inl (positionExt hrr ha)
    · exact Or.inr (Or.inr (positionExt hrr hc))
  · have hrr : pos.ring = ((pos.ring.toNat : Nat) : Int) := by omega
    rcases hpr2 with rfl | rfl
    · -- even index, pos is the last point of its line
      by_cases hz : pos.index = 0
      · have he : d.sides - 1 < d.sides := by omega
        have hmod : (2*(((d.sides - 1 : Nat)) : Int)+2) % ringSize d = 0 := by
          rw [show (2*(((d.sides - 1 : Nat)) : Int)+2) = ringSize d from by omega,
            Int.emod_self]
        have hb : pos.index = (2*(((d.sides - 1 : Nat)) : Int)+2) % ringSize d := by
          rw [hmod]
          omega
        have ha : (pos.index - 1) % ringSize d = 2*(((d.sides - 1 : Nat)) : Int)+1 := by
          rw [emod_neg_case (by omega) (by omega)]
          omega
        have hc : (pos.index - 2) % ringSize d = 2*(((d.sides - 1 : Nat)) : Int) := by
          rw [emod_neg_case (by omega) (by omega)]
          omega
        refine ⟨_, ringLine_mem (show pos.ring.toNat < 3 by omega) he, ?_, ?_, ?_⟩
        · exact Or.inr (Or.inr (positionExt hrr hb))
        · exact Or.inr (Or.inl (positionExt hrr ha))
        · exact Or.inl (positionExt hrr hc)
      · have he : (pos.index - 2).toNat / 2 < d.sides := by omega
        have h2e : 2*((((pos.index - 2).toNat / 2 : Nat)) : Int) = pos.index - 2 := by omega
        have hb : pos.index = (2*((((pos.index - 2).toNat / 2 : Nat)) : Int)+2) %
            ringSize d := by
          rw [emod_id (by omega) (by omega)]
          omega
        have ha : (pos.index - 1) % ringSize d =
            2*((((pos.index - 2).toNat / 2 : Nat)) : Int)+1 := by
          rw [emod_id (by omega) (by omega)]
          omega
        have hc : (pos.index - 2) % ringSize d =
            2*((((pos.index - 2).toNat / 2 : Nat)) : Int) := by
          rw [emod_id (by omega) (by omega)]
          omega
        refine ⟨_, ringLine_mem (show pos.ring.toNat < 3 by omega) he, ?_, ?_, ?_⟩
        · exact Or.inr (Or.inr (positionExt hrr hb))
        · exact Or.inr (Or.inl (positionExt hrr ha))
        · exact Or.inl (positionExt hrr hc)
    · -- even index, pos is the first point of its line
      have he : pos.index.toNat / 2 < d.sides := by omega
      have h2e : 2*(((pos.index.toNat / 2 : Nat)) : Int) = pos.index := by omega
      have hb : pos.index = 2*(((pos.index.toNat / 2 : Nat)) : Int) := by omega
      have ha : (pos.index+1) % ringSize d = 2*(((pos.index.toNat / 2 : Nat)) : Int)+1 := by
        rw [emod_id (by omega) (by omega)]
        omega
      have hc : (pos.index+2) % ringSize d =
          (2*(((pos.index.toNat / 2 : Nat)) : Int)+2) % ringSize d :=
        congrArg (fun z => z % ringSize d) (by omega)
      refine ⟨_, ringLine_mem (show pos.ring.toNat < 3 by omega) he, ?_, ?_, ?_⟩
      · exact Or.inl (positionExt hrr hb)
      · exact Or.inr (Or.inl (positionExt hrr ha))
      · exact Or.inr (Or.inr (positionExt hrr hc))

theorem lines_of_complete {d : BoardDesign} (hs : 3 ≤ d.sides) {pos : Position}
    {t : Position × Position × Position} (ht : t ∈ iter_lines d)
    (hpos : tripleHas t pos) :
    ∃ pr ∈ iter_lines_of d pos, tripleHas t pr.1 ∧ tripleHas t pr.2 ∧
      pr.1 ≠ pos ∧ pr.2 ≠ pos ∧ pr.1 ≠ pr.2 := by
  have hrs : ringSize d = 2*(d.sides : Int) := rfl
  rcases mem_iter_lines_elim ht with ⟨r, hr, side, hside, rfl⟩ | ⟨idx, hidx, hg, rfl⟩
  · rcases hpos with rfl | rfl | rfl
    · -- pos is the even first point of the line
      have heven : ¬ (2*(side : Int)) % 2 = 1 := by omega
      have e1 : (2*(side : Int)+1) % ringSize d = 2*(side : Int)+1 :=
        emod_id (by omega) (by omega)
      have hne1 : (2*(side : Int)+1) % ringSize d ≠ 2*(side : Int) := by
        rw [e1]
        omega
      have hne2 : (2*(side : Int)+2) % ringSize d ≠ 2*(side : Int) := by
        by_cases hw : 2*(side : Int)+2 = ringSize d
        · rw [hw, Int.emod_self]
          omega
        · rw [emod_id (by omega) (by omega)]
          omega
      have hne3 : (2*(side : Int)+1) % ringSize d ≠ (2*(side : Int)+2) % ringSize d := by
        rw [e1]
        by_cases hw : 2*(side : Int)+2 = ringSize d
        · rw [hw, Int.emod_self]
          omega
        · rw [emod_id (by omega) (by omega)]
          omega
      refine ⟨_, evenPair2_mem_lines_of heven, ?_, ?_, ?_, ?_, ?_⟩
      · exact Or.inr (Or.inl (positionExt rfl e1))
      · exact Or.inr (Or.inr rfl)
      · exact ne_of_index hne1
      · exact ne_of_index hne2
      · exact ne_of_index hne3
    · -- pos is the odd middle point of the line
      have hodd : (2*(side : Int)+1) % 2 = 1 := by omega
      have ha : 2*(side : Int)+1-1 = 2*(side : Int) := by omega
      have hc : (2*(side : Int)+1+1) % ringSize d = (2*(side : Int)+2) % ringSize d :=
        congrArg (fun z => z % ringSize d) (by omega)
      have hne1 : 2*(side : Int)+1-1 ≠ 2*(side : Int)+1 := by omega
      have hne2 : (2*(side : Int)+1+1) % ringSize d ≠ 2*(side : Int)+1 := by
        by_cases hw : 2*(side : Int)+2 = ringSize d
        · rw [show 2*(side : Int)+1+1 = ringSize d from by omega, Int.emod_self]
          omega
        · rw [emod_id (by omega) (by omega)]
          omega
      have hne3 : 2*(side : Int)+1-1 ≠ (2*(side : Int)+1+1) % ringSize d := by
        by_cases hw : 2*(side : Int)+2 = ringSize d
        · rw [show 2*(side : Int)+1+1 = ringSize d from by omega, Int.emod_self]
          omega
        · rw [emod_id (by omega) (by omega)]
          omega
      refine ⟨_, oddPair_mem_lines_of hodd, ?_, ?_, ?_, ?_, ?_⟩
      · exact Or.inl (positionExt rfl ha)
      · exact Or.inr (Or.inr (positionExt rfl hc))
      · exact ne_of_index hne1
      · exact ne_of_index hne2
      · exact ne_of_index hne3
    · -- pos is the wrapped-around last point of the line
      by_cases hw : 2*(side : Int)+2 = ringSize d
      · have hj : (2*(side : Int)+2) % ringSize d = 0 := by rw [hw, Int.emod_self]
        have heven : ¬ ((2*(side : Int)+2) % ringSize d) % 2 = 1 := by
          rw [hj]
          omega
        have em1 : ((2*(side : Int)+2) % ringSize d - 1) % ringSize d =
            2*(side : Int)+1 := by
          rw [hj]
          rw [emod_neg_case (by omega) (by omega)]
          omega
        have em2 : ((2*(side : Int)+2) % ringSize d - 2) % ringSize d =
            2*(side : Int) := by
          rw [hj]
          rw [emod_neg_case (by omega) (by omega)]
          omega
        have hne1 : ((2*(side : Int)+2) % ringSize d - 1) % ringSize d ≠
            (2*(side : Int)+2) % ringSize d := by
          rw [em1, hj]
          omega
        have hne2 : ((2*(side : Int)+2) % ringSize d - 2) % ringSize d ≠
            (2*(side : Int)+2) % ringSize d := by
          rw [em2, hj]
          omega
        have hne3 : ((2*(side : Int)+2) % ringSize d - 1) % ringSize d ≠
            ((2*(side : Int)+2) % ringSize d - 2) % ringSize d := by
          rw [em1, em2]
          omega
        refine ⟨_, evenPair1_mem_lines_of heven, ?_, ?_, ?_, ?_, ?_⟩
        · exact Or.inr (Or.inl (positionExt rfl em1))
        · exact Or.inl (positionExt rfl em2)
        · exact ne_of_index hne1
        · exact ne_of_index hne2
        · exact ne_of_index hne3
      · have hj : (2*(side : Int)+2) % ringSize d = 2*(side : Int)+2 :=
          emod_id (by omega) (by omega)
        have heven : ¬ ((2*(side : Int)+2) % ringSize d) % 2 = 1 := by
          rw [hj]
          omega
        have em1 : ((2*(side : Int)+2) % ringSize d - 1) % ringSize d =
            2*(side : Int)+1 := by
          rw [hj]
          rw [emod_id (by omega) (by omega)]
          omega
        have em2 : ((2*(side : Int)+2) % ringSize d - 2) % ringSize d =
            2*(side : Int) := by
          rw [hj]
          rw [emod_id (by omega) (by omega)]
          omega
        have hne1 : ((2*(side : Int)+2) % ringSize d - 1) % ringSize d ≠
            (2*(side : Int)+2) % ringSize d := by
          rw [em1, hj]
          omega
        have hne2 : ((2*(side : Int)+2) % ringSize d - 2) % ringSize d ≠
            (2*(side : Int)+2) % ringSize d := by
          rw [em2, hj]
          omega
        have hne3 : ((2*(side : Int)+2) % ringSize d - 1) % ringSize d ≠
            ((2*(side : Int)+2) % ringSize d - 2) % ringSize d := by
          rw [em1, em2]
          omega
        refine ⟨_, evenPair1_mem_lines_of heven, ?_, ?_, ?_, ?_, ?_⟩
        · exact Or.inr (Or.inl (positionExt rfl em1))
        · exact Or.inl (positionExt rfl em2)
        · exact ne_of_index hne1
        · exact ne_of_index hne2
        · exact ne_of_index hne3
  · -- cross line
    have hgI : (d.extended || decide (((idx : Nat) : Int) % 2 = 1)) = true := guard_cast hg
    rcases hpos with rfl | rfl | rfl
    · refine ⟨_, crossPair_mem_lines_of hgI, ?_, ?_, ?_, ?_, ?_⟩
      · exact Or.inr (Or.inl (positionExt (show ((0 : Int)+1) % 3 = 1 by decide) rfl))
      · exact Or.inr (Or.inr (positionExt (show ((0 : Int)+2) % 3 = 2 by decide) rfl))
      · exact ne_of_ring (show ((0 : Int)+1) % 3 ≠ 0 by decide)
      · exact ne_of_ring (show ((0 : Int)+2) % 3 ≠ 0 by decide)
      · exact ne_of_ring (show ((0 : Int)+1) % 3 ≠ ((0 : Int)+2) % 3 by decide)
    · refine ⟨_, crossPair_mem_lines_of hgI, ?_, ?_, ?_, ?_, ?_⟩
      · exact Or.inr (Or.inr (positionExt (show ((1 : Int)+1) % 3 = 2 by decide) rfl))
      · exact Or.inl (positionExt (show ((1 : Int)+2) % 3 = 0 by decide) rfl)
      · exact ne_of_ring (show ((1 : Int)+1) % 3 ≠ 1 by decide)
      · exact ne_of_ring (show ((1 : Int)+2) % 3 ≠ 1 by decide)
      · exact ne_of_ring (show ((1 : Int)+1) % 3 ≠ ((1 : Int)+2) % 3 by decide)
    · refine ⟨_, crossPair_mem_lines_of hgI, ?_, ?_, ?_, ?_, ?_⟩
      · exact Or.inl (positionExt (show ((2 : Int)+1) % 3 = 0 by decide) rfl)
      · exact Or.inr (Or.inl (positionExt (show ((2 : Int)+2) % 3 = 1 by decide) rfl))
      · exact ne_of_ring (show ((2 : Int)+1) % 3 ≠ 2 by decide)
      · exact ne_of_ring (show ((2 : Int)+2) % 3 ≠ 2 by decide)
      · exact ne_of_ring (show ((2 : Int)+1) % 3 ≠ ((2 : Int)+2) % 3 by decide)

/-- The full agreement property between `get_third_in_line`, `iter_lines` and
`iter_lines_of` asserted by the spec for a given board design: pairs on a
common line have a symmetric third completing a triple of `iter_lines`; every
triple of `iter_lines` is closed under taking thirds in all six orders; every
pair listed by `iter_lines_of pos` lies with `pos` on a triple of
`iter_lines`; every triple of `iter_lines` through `pos` is reachable as a
pair of distinct other points from `iter_lines_of pos`; and pairs on no
common line get no third. -/
def ThirdLineAgreement (d : BoardDesign) : Prop :=
  (∀ a b : Position, OnCommonLine d a b →
    ∃ c, get_third_in_line d a b = some c ∧ get_third_in_line d b a = some c ∧
      ∃ t ∈ iter_lines d, tripleHas t a ∧ tripleHas t b ∧ tripleHas t c) ∧
  (∀ t ∈ iter_lines d,
    get_third_in_line d t.1 t.2.1 = some t.2.2 ∧
    get_third_in_line d t.2.1 t.1 = some t.2.2 ∧
    get_third_in_line d t.1 t.2.2 = some t.2.1 ∧
    get_third_in_line d t.2.2 t.1 = some t.2.1 ∧
    get_third_in_line d t.2.1 t.2.2 = some t.1 ∧
    get_third_in_line d t.2.2 t.2.1 = some t.1) ∧
  (∀ pos : Position, ValidPos d pos → ∀ pr ∈ iter_lines_of d pos,
    ∃ t ∈ iter_lines d, tripleHas t pos ∧ tripleHas t pr.1 ∧ tripleHas t pr.2) ∧
  (∀ t ∈ iter_lines d, ∀ pos : Position, tripleHas t pos →
    ∃ pr ∈ iter_lines_of d pos, tripleHas t pr.1 ∧ tripleHas t pr.2 ∧
      pr.1 ≠ pos ∧ pr.2 ≠ pos ∧ pr.1 ≠ pr.2) ∧
  (∀ a b : Position, ValidPos d a → ValidPos d b → ¬ OnCommonLine d a b →
    get_third_in_line d a b = none)

/-- C8: for every design with sides >= 3 and either extended setting,
`get_third_in_line` on a pair sharing a valid line succeeds, is symmetric in
its arguments, and completes the pair to a triple listed by `iter_lines`;
conversely every listed triple is pairwise related this way in all orders;
`iter_lines` and `iter_lines_of` reach exactly the same lines; and a pair on
no common line yields no third. -/
theorem c8_third_line_agreement (d : BoardDesign) (hs : 3 ≤ d.sides) :
    ThirdLineAgreement d := by
  refine ⟨fun a b h => third_of_common_line hs h, ?_,
    fun pos hv pr hpr => lines_of_sound hs hv hpr,
    fun t ht pos hpos => lines_of_complete hs ht hpos,
    fun a b ha hb h => third_none_of_not_common hs ha hb h⟩
  intro t ht
  obtain ⟨h1, h2, h3⟩ := line_thirds hs ht
  exact ⟨h1, (get_third_symm d t.2.1 t.1).trans h1,
    h2, (get_third_symm d t.2.2 t.1).trans h2,
    h3, (get_third_symm d t.2.2 t.2.1).trans h3⟩

def c8Design : BoardDesign := { sides := 3, extended := false }

theorem c8_third_line_agreement_witness :
    3 ≤ c8Design.sides ∧ ThirdLineAgreement c8Design :=
  ⟨by decide, c8_third_line_agreement c8Design (by decide)⟩

/-! ### Execution of generated actions preserves well-formedness -/

theorem neighbors_valid {d : BoardDesign} (hs : 3 ≤ d.sides) {p q : Position}
    (hp : ValidPos d p) (hq : q ∈ neighbors_of d p) : ValidPos d q := by
  obtain ⟨hr0, hr1, hi0, hi1⟩ := hp
  have hrs : ringSize d = 2*(d.sides : Int) := rfl
  have hpos : (0 : Int) < ringSize d := by omega
  unfold neighbors_of at hq
  rw [List.mem_append] at hq
  rcases hq with hq | hq
  · rcases List.mem_cons.mp hq with rfl | hq
    · exact ⟨hr0, hr1, Int.emod_nonneg _ (by omega), Int.emod_lt_of_pos _ hpos⟩
    · rcases List.mem_singleton.mp hq with rfl
      exact ⟨hr0, hr1, Int.emod_nonneg _ (by omega), Int.emod_lt_of_pos _ hpos⟩
  · by_cases hg : (d.extended || decide (p.index % 2 = 1)) = true
    · rw [if_pos hg, List.mem_append] at hq
      rcases hq with hq | hq
      · by_cases h0 : p.ring > 0
        · rw [if_pos h0] at hq
          rcases List.mem_singleton.mp hq with rfl
          exact ⟨show (0 : Int) ≤ p.ring - 1 by omega, show p.ring - 1 < 3 by omega,
            hi0, hi1⟩
        · rw [if_neg h0] at hq
          simp at hq
      · by_cases h2 : p.ring < 2
        · rw [if_pos h2] at hq
          rcases List.mem_singleton.mp hq with rfl
          exact ⟨show (0 : Int) ≤ p.ring + 1 by omega, show p.ring + 1 < 3 by omega,
            hi0, hi1⟩
        · rw [if_neg h2] at hq
          simp at hq
    · rw [if_neg hg] at hq
      simp at hq

theorem mem_iter_fields_valid {d : BoardDesign} {p : Position}
    (h : p ∈ iter_fields d) : ValidPos d p :=
  (mem_iter_fields_iff d p).mp h

theorem mem_iter_empty_valid {b : GameBoard} {p : Position} (h : p ∈ b.iter_empty) :
    ValidPos b.design p :=
  mem_iter_fields_valid (List.mem_filter.mp h).1

/-- GameBoard well-formedness: the component of GameState.WF about the board. -/
def BoardWF (b : GameBoard) : Prop :=
  (b.fields.map Prod.fst).Nodup ∧ 3 ≤ b.design.sides ∧ ∀ e ∈ b.fields, ValidPos b.design e.1

theorem boardWF_of_sublist {b b2 : GameBoard} (hw : BoardWF b)
    (hsub : b2.fields.Sublist b.fields) (hdes : b2.design = b.design) : BoardWF b2 := by
  refine ⟨(hsub.map Prod.fst).nodup hw.1, by rw [hdes]; exact hw.2.1, ?_⟩
  intro e he
  rw [hdes]
  exact hw.2.2 e (hsub.subset he)

theorem remove_fst_design (b : GameBoard) (pos : Position) :
    (b.remove pos).1.design = b.design := by
  unfold GameBoard.remove
  cases hfp : findPiece b.fields pos with
  | none => rfl
  | some pc =>
    show (GameBoard.decCount _ _).design = _
    unfold GameBoard.decCount
    split <;> rfl

theorem remove_fst_sublist (b : GameBoard) (pos : Position) :
    (b.remove pos).1.fields.Sublist b.fields := by
  unfold GameBoard.remove
  cases hfp : findPiece b.fields pos with
  | none => exact List.Sublist.refl _
  | some pc =>
    show (GameBoard.decCount _ _).fields.Sublist _
    unfold GameBoard.decCount
    split
    · exact List.filter_sublist _
    · exact List.filter_sublist _

theorem runAttacks_cons_none {pid : PlayerID} {b : GameBoard} {p : Position}
    {rest : List Position} (h : (b.remove p).2 = none) :
    runAttacks pid b (p :: rest) = (some ExecErr.assertionFailed, (b.remove p).1) := by
  unfold runAttacks
  rw [h]

theorem runAttacks_cons_some {pid : PlayerID} {b : GameBoard} {p : Position}
    {rest : List Position} {pc : Piece} (h : (b.remove p).2 = some pc) :
    runAttacks pid b (p :: rest) =
      if pc.playerID = pid then (some ExecErr.assertionFailed, (b.remove p).1)
      else runAttacks pid (b.remove p).1 rest := by
  conv_lhs => unfold runAttacks
  rw [h]

theorem runAttacks_shape (pid : PlayerID) (atks : List Position) : ∀ b : GameBoard,
    (runAttacks pid b atks).2.fields.Sublist b.fields ∧
      (runAttacks pid b atks).2.design = b.design := by
  induction atks with
  | nil => exact fun b => ⟨List.Sublist.refl _, rfl⟩
  | cons p rest ih =>
    intro b
    cases h2 : (b.remove p).2 with
    | none =>
      rw [runAttacks_cons_none h2]
      exact ⟨remove_fst_sublist b p, remove_fst_design b p⟩
    | some pc =>
      rw [runAttacks_cons_some h2]
      by_cases hpc : pc.playerID = pid
      · rw [if_pos hpc]
        exact ⟨remove_fst_sublist b p, remove_fst_design b p⟩
      · rw [if_neg hpc]
        obtain ⟨hsub, hdes⟩ := ih (b.remove p).1
        exact ⟨hsub.trans (remove_fst_sublist b p), hdes.trans (remove_fst_design b p)⟩

theorem executeTail_wf {s1 : GameState} {pid : PlayerID} {atks : List Position}
    (hw : s1.WF) : (executeTail s1 pid atks).2.WF := by
  unfold executeTail
  by_cases hl : atks ≠ []
  · rw [if_pos hl]
    obtain ⟨hsub, hdes⟩ := runAttacks_shape pid atks s1.board
    have hb2 : BoardWF (runAttacks pid s1.board atks).2 := boardWF_of_sublist hw hsub hdes
    rcases hra : runAttacks pid s1.board atks with ⟨e2, b2⟩
    rw [hra] at hb2
    cases e2 with
    | none =>
      show GameState.WF
        { s1 with board := b2, player_turn := otherPlayer s1.player_turn }
      exact hb2
    | some e =>
      show GameState.WF { s1 with board := b2 }
      exact hb2
  · rw [if_neg hl]
    exact hw

theorem executeTail_frozen {s1 : GameState} {pid : PlayerID} {atks : List Position} :
    (executeTail s1 pid atks).2.frozen = s1.frozen := by
  unfold executeTail
  by_cases hl : atks ≠ []
  · rw [if_pos hl]
    rcases hra : runAttacks pid s1.board atks with ⟨e2, b2⟩
    cases e2 <;> rfl
  · rw [if_neg hl]

theorem placeResult_WF {s : GameState} (hwf : s.WF) {pos : Position}
    (hval : ValidPos s.board.design pos)
    (hemp : findPiece s.board.fields pos = none) : (placeResult s pos).WF := by
  have hfields := placeResult_fields s pos
  have hdes : (placeResult s pos).board.design = s.board.design := by
    unfold placeResult
    rw [incPlaced_board]
    unfold placedBoard GameBoard.incCount
    split <;> rfl
  refine ⟨?_, ?_, ?_⟩
  · rw [hfields, List.map_append]
    refine List.Nodup.append hwf.1 (List.nodup_singleton _) ?_
    intro x hx hx2
    rcases List.mem_singleton.mp hx2 with rfl
    exact (findPiece_eq_none_iff _ _).mp hemp hx
  · rw [hdes]
    exact hwf.2.1
  · intro e he
    rw [hfields] at he
    rw [hdes]
    rcases List.mem_append.mp he with he | he
    · exact hwf.2.2 e he
    · rcases List.mem_singleton.mp he with rfl
      exact hval

theorem moveResult_WF {s : GameState} (hwf : s.WF) {start stop : Position} {pc0 : Piece}
    (hval : ValidPos s.board.design stop)
    (hemp : findPiece s.board.fields stop = none) : (moveResult s start stop pc0).WF := by
  have hsubkeys := removeKey_keys_sublist s.board.fields start
  refine ⟨?_, hwf.2.1, ?_⟩
  · show ((removeKey s.board.fields start ++ [(stop, pc0)]).map Prod.fst).Nodup
    rw [List.map_append]
    refine List.Nodup.append (hsubkeys.nodup hwf.1) (List.nodup_singleton _) ?_
    intro x hx hx2
    rcases List.mem_singleton.mp hx2 with rfl
    exact (findPiece_eq_none_iff _ _).mp hemp (hsubkeys.subset hx)
  · intro e he
    rcases List.mem_append.mp he with he | he
    · exact hwf.2.2 e ((List.filter_sublist _).subset he)
    · rcases List.mem_singleton.mp he with rfl
      exact hval

theorem placeResult_frozen (s : GameState) (pos : Position) :
    (placeResult s pos).frozen = s.frozen := by
  unfold placeResult GameState.incPlaced
  split <;> rfl

/-- A successfully executed generated action also leaves a well-formed,
still unfrozen state (the board only gains the empty designed destination
and loses removed keys). -/
theorem executeM_eq_tail2 {s : GameState} {a : Action} {s1 : GameState}
    (hfr : s.frozen = false) (hstep : executeStep s a = (none, s1))
    (hpid : a.playerID = s.player_turn) :
    s.executeM a = executeTail s1 a.playerID (attacksList a) :=
  executeM_eq_tail hfr hpid hstep

theorem exec_generated_wf {s : GameState} (hwf : s.WF) (hfr : s.frozen = false)
    {a : Action} (ha : a ∈ s.calc_available_actions) :
    (s.executeM a).2.WF ∧ (s.executeM a).2.frozen = false := by
  unfold GameState.calc_available_actions at ha
  by_cases hp1 : s.placedOf s.player_turn < s.max_placed_items
  · rw [if_pos hp1] at ha
    obtain ⟨pos, hposmem, hbatch⟩ := List.mem_flatMap.mp ha
    have hemp : findPiece s.board.fields pos = none := mem_iter_empty_find hposmem
    have hval : ValidPos s.board.design pos := mem_iter_empty_valid hposmem
    have hs1 : (placeResult s pos).WF := placeResult_WF hwf hval hemp
    have hfr1 : (placeResult s pos).frozen = false := by
      rw [placeResult_frozen]
      exact hfr
    rcases mem_enhance hbatch with rfl | ⟨comb, hcm, rfl⟩ <;>
      rw [executeM_eq_tail2 hfr (executeStep_place hp1 hemp) rfl] <;>
      exact ⟨executeTail_wf hs1, by rw [executeTail_frozen]; exact hfr1⟩
  · rw [if_neg hp1] at ha
    by_cases hp2 : s.board.count s.player_turn > 3
    · rw [if_pos hp2] at ha
      obtain ⟨pp, hppmem, ha2⟩ := List.mem_flatMap.mp ha
      obtain ⟨stop, hstopmem, hbatch⟩ := List.mem_flatMap.mp ha2
      obtain ⟨hfind0, hpc0, hmem0⟩ := mem_iter_pieces_find hwf.1 hppmem
      obtain ⟨hnbr, hempstop⟩ := mem_iter_available_moves hstopmem
      have hvalid0 : ValidPos s.board.design pp.1 := hwf.2.2 pp hmem0
      have hlink := is_linked_to_of_mem_neighbors hwf.2.1 hvalid0 hnbr
      have hval : ValidPos s.board.design stop := neighbors_valid hwf.2.1 hvalid0 hnbr
      have hs1 : (moveResult s pp.1 stop pp.2).WF := moveResult_WF hwf hval hempstop
      rcases mem_enhance hbatch with rfl | ⟨comb, hcm, rfl⟩ <;>
        rw [executeM_eq_tail2 hfr (executeStep_move hfind0 hpc0 hlink hempstop) rfl] <;>
        exact ⟨executeTail_wf hs1, by rw [executeTail_frozen]; exact hfr⟩
    · rw [if_neg hp2] at ha
      by_cases hp3 : s.board.count s.player_turn = 3
      · rw [if_pos hp3] at ha
        obtain ⟨pp, hppmem, ha2⟩ := List.mem_flatMap.mp ha
        obtain ⟨stop, hstopmem, hbatch⟩ := List.mem_flatMap.mp ha2
        obtain ⟨hfind0, hpc0, hmem0⟩ := mem_iter_pieces_find hwf.1 hppmem
        have hempstop : findPiece s.board.fields stop = none := mem_iter_empty_find hstopmem
        have hval : ValidPos s.board.design stop := mem_iter_empty_valid hstopmem
        have hs1 : (moveResult s pp.1 stop pp.2).WF := moveResult_WF hwf hval hempstop
        rcases mem_enhance hbatch with rfl | ⟨comb, hcm, rfl⟩ <;>
          rw [executeM_eq_tail2 hfr (executeStep_jump hfind0 hpc0 hempstop) rfl] <;>
          exact ⟨executeTail_wf hs1, by rw [executeTail_frozen]; exact hfr⟩
      · rw [if_neg hp3] at ha
        simp at ha

/-- The successful execution of a generated action, in equation form. -/
theorem exec_generated_eq {s : GameState} (hwf : s.WF) (hfr : s.frozen = false)
    {a : Action} (ha : a ∈ s.calc_available_actions) :
    s.executeM a = (none, (s.executeM a).2) := by
  have h1 := exec_generated_action_succeeds hwf hfr ha
  rcases he : s.executeM a with ⟨e, s2⟩
  rw [he] at h1
  cases h1
  rfl

/-! ### The MCTS engine (mcts/base.py and mcts/simple.py)

The global `random` stream is an oracle `RNG : Nat → Nat`; the k-th draw is
reduced into the randint range with `%`, and the current draw position is
threaded through every function that consumes randomness.  The MCTS node
counters are exact: Nat for visited/simulations, ℚ for the float
reward_total. -/

/-- The random oracle: draw number k of the session. -/
def RNG : Type := Nat → Nat

/-- pop_random_from_list: pick index randint(0, len-1), return the element
and the list without it; `none` models the randint crash on an empty list. -/
def pop_random_from_list {α : Type} (data : List α) (k : Nat) : Option (α × List α) :=
  match data with
  | [] => none
  | x :: xs =>
    some ((x :: xs).get ⟨k % (x :: xs).length, Nat.mod_lt _ (Nat.succ_pos _)⟩,
      (x :: xs).eraseIdx (k % (x :: xs).length))

/-- SimpleSimulationPolicy.take_action: pop a random action with attacks if
any exists (removing it from `actions` by its original index), else pop a
random action. -/
def take_action (actions : List Action) (k : Nat) : Option (Action × List Action) :=
  if (actions.enum.filter fun pr => !(attacksList pr.2).isEmpty) ≠ [] then
    match pop_random_from_list
        (actions.enum.filter fun pr => !(attacksList pr.2).isEmpty) k with
    | none => none
    | some ((index, action), _) => some (action, actions.eraseIdx index)
  else pop_random_from_list actions k

/-- SimulationResult (steps, winner, pieces_left = board.count_total()). -/
structure SimulationResult where
  steps : Nat
  winner : Option PlayerID
  pieces_left : Int × Int
  deriving DecidableEq, Repr

/-- result.pieces_left[pid]. -/
def piecesOf (pl : Int × Int) (pid : PlayerID) : Int :=
  if pid = 0 then pl.1 else pl.2

/-- The non-branching tail of SimpleSimulationPolicy._iter_simulate (the
default policy has max_depth=50, branching=5, branching_depth=1, so for
steps >= 1 the recursion is a single path; the structural fuel is
initialised to 50, which strictly exceeds the 49 remaining levels of any
call made at steps >= 1, so the fuel-out `none` is never reached). -/
def iterSimSteps (r : RNG) : Nat → Nat → GameState → List Action → Nat →
    Option (List SimulationResult × Nat)
  | 0, _, _, _, _ => none
  | f+1, p, state, actions, steps =>
    if 50 ≤ steps then some ([⟨steps, none, state.board.count_total⟩], p)
    else if actions = [] then
      some ([⟨steps, some (otherPlayer state.player_turn), state.board.count_total⟩], p)
    else
      match take_action actions (r p) with
      | none => none
      | some (a, _) =>
        match state.executeM a with
        | (some _, _) => none
        | (none, st2) => iterSimSteps r f (p+1) st2 st2.calc_available_actions (steps+1)

/-- The branching loop of _iter_simulate at steps < branching_depth: n
take_action rounds on the shrinking `actions` list, each executed on a
clone of the state, recursing at steps+1 (where the recursion is the
non-branching tail). -/
def iterSimBranch (r : RNG) (state : GameState) (steps : Nat) :
    Nat → Nat → List Action → Option (List SimulationResult × Nat)
  | p, 0, _ => some ([], p)
  | p, n+1, actions =>
    match take_action actions (r p) with
    | none => none
    | some (a, rest) =>
      match state.clone.executeM a with
      | (some _, _) => none
      | (none, st2) =>
        match iterSimSteps r 50 (p+1) st2 st2.calc_available_actions (steps+1) with
        | none => none
        | some (res1, p2) =>
          match iterSimBranch r state steps p2 n rest with
          | none => none
          | some (res2, p3) => some (res1 ++ res2, p3)

/-- SimpleSimulationPolicy._iter_simulate with the default parameters:
branching (min(5, len(actions)) playouts) happens exactly when steps <
branching_depth = 1, otherwise a single playout path is followed. -/
def iterSimulate (r : RNG) (p : Nat) (state : GameState) (actions : List Action)
    (steps : Nat) : Option (List SimulationResult × Nat) :=
  if 50 ≤ steps then some ([⟨steps, none, state.board.count_total⟩], p)
  else if actions = [] then
    some ([⟨steps, some (otherPlayer state.player_turn), state.board.count_total⟩], p)
  else if 1 < 5 ∧ steps < 1 then
    iterSimBranch r state steps p (min 5 actions.length) actions
  else
    match take_action actions (r p) with
    | none => none
    | some (a, _) =>
      match state.executeM a with
      | (some _, _) => none
      | (none, st2) => iterSimSteps r 50 (p+1) st2 st2.calc_available_actions (steps+1)

/-- ratio = (pieces_of_search_player - pieces_of_opponent) /
(pieces_of_search_player + pieces_of_opponent), as an exact rational. -/
def ratioOf (player : PlayerID) (res : SimulationResult) : ℚ :=
  ((piecesOf res.pieces_left player : Int) -
      (piecesOf res.pieces_left (otherPlayer player) : Int) : Int) /
    ((piecesOf res.pieces_left player : Int) +
      (piecesOf res.pieces_left (otherPlayer player) : Int) : Int)

/-- MCTS_Node: the frozen game state, the untried actions, the children
keyed by action in insertion order, and the counters. -/
inductive MNode : Type where
  | mk (state : GameState) (remaining_actions : List Action)
      (children : List (Action × MNode)) (visited : Nat) (simulations : Nat)
      (reward_total : ℚ)

def MNode.state : MNode → GameState
  | .mk st _ _ _ _ _ => st

def MNode.remaining_actions : MNode → List Action
  | .mk _ rem _ _ _ _ => rem

def MNode.children : MNode → List (Action × MNode)
  | .mk _ _ cs _ _ _ => cs

def MNode.visited : MNode → Nat
  | .mk _ _ _ v _ _ => v

def MNode.simulations : MNode → Nat
  | .mk _ _ _ _ sims _ => sims

def MNode.reward_total : MNode → ℚ
  | .mk _ _ _ _ _ q => q

/-- MCTS_Node.__init__: freeze the state, enumerate its available actions,
no children, all counters zero. -/
def mkMNode (state : GameState) : MNode :=
  .mk state.freeze state.freeze.calc_available_actions [] 0 0 0

/-- SimpleSimulationPolicy.simulate on a node for search player `player`:
run the playouts from a clone of the node state, accumulate reward += 2 *
ratio over the playouts, add reward / len(results) to reward_total and 1 to
simulations.  `none` models a crash (a playout raising, or the
ZeroDivisionError on an empty playout list, which `iterSimulate` in fact
never produces). -/
def simulate (player : PlayerID) (r : RNG) (p : Nat) (node : MNode) :
    Option (MNode × Nat) :=
  match iterSimulate r p node.state.clone node.state.clone.calc_available_actions 0 with
  | none => none
  | some (results, p2) =>
    if results = [] then none
    else
      some (.mk node.state node.remaining_actions node.children node.visited
        (node.simulations + 1)
        (node.reward_total +
          (results.foldl (fun acc res => acc + 2 * ratioOf player res) 0) /
            (results.length : ℚ)), p2)

/-- SimpleBackpropagationPolicy.backpropagate as seen by one ancestor: it
receives one event per freshly simulated descendant, each carrying the
updated (simulations, reward_total) of the child subtree root at that
moment; the ancestor adds them in order, bumps visited once per event, and
its own updated counters after each event form the events its parent
consumes.  Returns the final (simulations, reward_total, visited) and the
outgoing event list. -/
def applyEvents : Nat → ℚ → Nat → List (Nat × ℚ) → (Nat × ℚ × Nat) × List (Nat × ℚ)
  | sims, q, vis, [] => ((sims, q, vis), [])
  | sims, q, vis, (ds, dq) :: rest =>
    let out := applyEvents (sims + ds) (q + dq) (vis + 1) rest
    (out.1, (sims + ds, q + dq) :: out.2)

/-- SimpleExpansionPolicy.expand (branching=3) interleaved with simulate and
backpropagate exactly as run_one_iteration drives the generator: each round
pops a random untried action, executes it on a clone of the node state,
wraps the result in a fresh node, simulates that child, stores it in the
children dict, and applies the child's backpropagation update to the
expanding node, recording the node's updated counters as the event its own
parent consumes. -/
def expandLoop (player : PlayerID) (r : RNG) :
    Nat → Nat → MNode → List (Nat × ℚ) → Option (MNode × List (Nat × ℚ) × Nat)
  | p, 0, u, evs => some (u, evs, p)
  | p, n+1, u, evs =>
    match pop_random_from_list u.remaining_actions (r p) with
    | none => none
    | some (a, rem2) =>
      match u.state.clone.executeM a with
      | (some _, _) => none
      | (none, st2) =>
        match simulate player r (p+1) (mkMNode st2) with
        | none => none
        | some (child, p2) =>
          expandLoop player r p2 n
            (.mk u.state rem2 (u.children ++ [(a, child)]) (u.visited + 1)
              (u.simulations + child.simulations)
              (u.reward_total + child.reward_total))
            (evs ++ [(u.simulations + child.simulations,
              u.reward_total + child.reward_total)])

/-- MCTS.run_one_iteration fused with SimpleSelectionPolicy.select_from:
the pure descent returns the first node with untried actions, descending
through the UCB1-best child of fully expanded nodes (`choose` abstracts the
float UCB1 sort; with a single child every choose that picks a member
agrees with it); expansion with branching=3 happens at the selected node
and the recorded events replay backpropagate towards the root on the way
back.  The Bool is run_one_iteration's return value; `none` models a crash
or exhausted descent fuel. -/
def iterateFrom (choose : List (Action × MNode) → Option (Action × MNode))
    (player : PlayerID) (r : RNG) :
    Nat → Nat → MNode → Option (Bool × MNode × List (Nat × ℚ) × Nat)
  | 0, _, _ => none
  | fuel+1, p, node =>
    if node.remaining_actions ≠ [] then
      match expandLoop player r p (min 3 node.remaining_actions.length) node [] with
      | none => none
      | some (n2, evs, p2) => some (true, n2, evs, p2)
    else if node.children.isEmpty then some (false, node, [], p)
    else
      match choose node.children with
      | none => none
      | some (a, c) =>
        match iterateFrom choose player r fuel p c with
        | none => none
        | some (false, _, _, p2) => some (false, node, [], p2)
        | some (true, c2, evs, p2) =>
          some (true, .mk node.state node.remaining_actions
            (node.children.map fun pr => if pr.1 = a then (a, c2) else pr)
            (applyEvents node.simulations node.reward_total node.visited evs).1.2.2
            (applyEvents node.simulations node.reward_total node.visited evs).1.1
            (applyEvents node.simulations node.reward_total node.visited evs).1.2.1,
            (applyEvents node.simulations node.reward_total node.visited evs).2, p2)

/-- N calls of MCTS.run_one_iteration on the tree rooted at MCTS.__init__'s
MCTS_Node(root); the root node has no parent, so its own outgoing
backpropagation events are discarded. -/
def runIters (choose : List (Action × MNode) → Option (Action × MNode))
    (player : PlayerID) (r : RNG) (fuel : Nat) :
    Nat → Nat → MNode → Option (MNode × Nat)
  | 0, p, node => some (node, p)
  | nIt+1, p, node =>
    match iterateFrom choose player r fuel p node with
    | none => none
    | some (_, n2, _, p2) => runIters choose player r fuel nIt p2 n2

/-! ### C9: what simulate adds to the counters -/

theorem foldl_add_sum {α : Type} (f : α → ℚ) : ∀ (l : List α) (init : ℚ),
    l.foldl (fun acc x => acc + f x) init = init + (l.map f).sum := by
  intro l
  induction l with
  | nil => intro init; simp
  | cons x xs ih =>
    intro init
    rw [List.foldl_cons, ih, List.map_cons, List.sum_cons]
    ring

theorem iterSimSteps_ne_nil (r : RNG) : ∀ (f p : Nat) (state : GameState)
    (actions : List Action) (steps : Nat) (res : List SimulationResult) (p2 : Nat),
    iterSimSteps r f p state actions steps = some (res, p2) → res ≠ [] := by
  intro f
  induction f with
  | zero =>
    intro p state actions steps res p2 h
    exact absurd h (by simp [iterSimSteps])
  | succ f ih =>
    intro p state actions steps res p2 h
    unfold iterSimSteps at h
    split at h
    · simp only [Option.some.injEq, Prod.mk.injEq] at h
      rw [← h.1]
      simp
    · split at h
      · simp only [Option.some.injEq, Prod.mk.injEq] at h
        rw [← h.1]
        simp
      · split at h
        · exact absurd h (by simp)
        · split at h
          · exact absurd h (by simp)
          · exact ih _ _ _ _ _ _ h

theorem iterSimBranch_ne_nil (r : RNG) (state : GameState) (steps : Nat)
    (p n : Nat) (actions : List Action) (res : List SimulationResult) (p2 : Nat)
    (h : iterSimBranch r state steps p (n+1) actions = some (res, p2)) : res ≠ [] := by
  unfold iterSimBranch at h
  split at h
  · exact absurd h (by simp)
  · split at h
    · exact absurd h (by simp)
    · split at h
      · exact absurd h (by simp)
      · split at h
        · exact absurd h (by simp)
        · rename_i x1 a rest hta x2 st2 hexec x3 res1 pm hsteps x4 res2 pm2 hbr
          simp only [Option.some.injEq, Prod.mk.injEq] at h
          rw [← h.1]
          have h1 := iterSimSteps_ne_nil r _ _ _ _ _ _ _ hsteps
          simp [h1]

theorem iterSimulate_ne_nil (r : RNG) (p : Nat) (state : GameState)
    (actions : List Action) (steps : Nat) (res : List SimulationResult) (p2 : Nat)
    (h : iterSimulate r p state actions steps = some (res, p2)) : res ≠ [] := by
  unfold iterSimulate at h
  split at h
  · simp only [Option.some.injEq, Prod.mk.injEq] at h
    rw [← h.1]
    simp
  · split at h
    · simp only [Option.some.injEq, Prod.mk.injEq] at h
      rw [← h.1]
      simp
    · split at h
      · rename_i h50 hnact hcond
        obtain ⟨n2, hn2⟩ : ∃ n2, min 5 actions.length = n2 + 1 := by
          have hlen : actions.length ≠ 0 := by
            intro hl
            exact hnact (List.length_eq_zero.mp hl)
          refine ⟨min 5 actions.length - 1, ?_⟩
          omega
        rw [hn2] at h
        exact iterSimBranch_ne_nil r state steps p n2 actions res p2 h
      · split at h
        · exact absurd h (by simp)
        · split at h
          · exact absurd h (by simp)
          · exact iterSimSteps_ne_nil r _ _ _ _ _ _ _ h

/-- C9: whenever the default simulation policy's playouts from a node
produce the results r_1..r_n, simulate adds to the node's reward_total
exactly (Σ 2 * ratio(r_i)) / n — the mean over the playouts of twice the
piece ratio (pieces of the search player minus pieces of the opponent over
their sum, from the playout's final board) — and adds exactly 1 to the
simulations counter regardless of n; the playout list is never empty. -/
theorem c9_simulate_mean_reward (player : PlayerID) (r : RNG) (p : Nat) (node : MNode)
    (results : List SimulationResult) (p2 : Nat)
    (h : iterSimulate r p node.state.clone node.state.clone.calc_available_actions 0 =
      some (results, p2)) :
    0 < results.length ∧
      simulate player r p node = some (.mk node.state node.remaining_actions
        node.children node.visited (node.simulations + 1)
        (node.reward_total + (results.map fun res => 2 * ratioOf player res).sum /
          (results.length : ℚ)), p2) := by
  have hne := iterSimulate_ne_nil r _ _ _ _ _ _ h
  refine ⟨List.length_pos.mpr hne, ?_⟩
  unfold simulate
  rw [h]
  show (if results = [] then none else _) = _
  rw [if_neg hne, foldl_add_sum, zero_add]

/-- A state with no available actions: both players have placed all items
and the mover has no pieces at all, so all three phase cases are empty. -/
def c9State : GameState :=
  { placed0 := 9, placed1 := 9, player_turn := 0,
    board := { design := { sides := 4, extended := false },
               fields := [(⟨0, 0⟩, ⟨1⟩), (⟨0, 2⟩, ⟨1⟩), (⟨0, 4⟩, ⟨1⟩)],
               count0 := 0, count1 := 3 },
    max_placed_items := 9, frozen := false }

def c9r : RNG := fun _ => 0

def c9Res : SimulationResult := ⟨0, some (otherPlayer 0), (0, 3)⟩

/-- Witness for C9 on a concrete terminal node: the single playout ends
immediately with the opponent as winner and pieces (0, 3), and simulate
adds 2 * (0-3)/(0+3) / 1 to the reward and 1 to the simulations. -/
theorem c9_simulate_mean_reward_witness :
    iterSimulate c9r 0 (mkMNode c9State).state.clone
        (mkMNode c9State).state.clone.calc_available_actions 0 =
      some ([c9Res], 0) ∧
    (0 < [c9Res].length ∧
      simulate 0 c9r 0 (mkMNode c9State) = some (.mk (mkMNode c9State).state
        (mkMNode c9State).remaining_actions (mkMNode c9State).children
        (mkMNode c9State).visited ((mkMNode c9State).simulations + 1)
        ((mkMNode c9State).reward_total +
          ([c9Res].map fun res => 2 * ratioOf 0 res).sum / (([c9Res].length : Nat) : ℚ)),
        0)) :=
  ⟨by decide, c9_simulate_mean_reward 0 c9r 0 (mkMNode c9State) [c9Res] 0 (by decide)⟩

/-! ### C2: the pipeline on a root with a single legal action -/

theorem pop_random_spec {α : Type} {data : List α} (hne : data ≠ []) (k : Nat) :
    ∃ a rest, pop_random_from_list data k = some (a, rest) ∧ a ∈ data ∧
      rest.length + 1 = data.length ∧ ∀ x ∈ rest, x ∈ data := by
  match data with
  | [] => exact absurd rfl hne
  | x :: xs =>
    refine ⟨_, _, rfl, List.get_mem _ _ _, ?_, ?_⟩
    · have hlt : k % (x :: xs).length < (x :: xs).length := Nat.mod_lt _ (Nat.succ_pos _)
      rw [List.length_eraseIdx]
      simp only [if_pos hlt]
      omega
    · intro y hy
      exact (List.eraseIdx_sublist _ _).subset hy

theorem take_action_spec {actions : List Action} (hne : actions ≠ []) (k : Nat) :
    ∃ a rest, take_action actions k = some (a, rest) ∧ a ∈ actions ∧
      rest.length + 1 = actions.length ∧ ∀ x ∈ rest, x ∈ actions := by
  unfold take_action
  by_cases hw : (actions.enum.filter fun pr => !(attacksList pr.2).isEmpty) ≠ []
  · rw [if_pos hw]
    obtain ⟨pr, rest0, hpop, hmem, hlen0, hsub0⟩ := pop_random_spec hw k
    rw [hpop]
    obtain ⟨i, a⟩ := pr
    have hmem2 := (List.mem_filter.mp hmem).1
    have hga : actions.get? i = some a := List.mem_enum_iff_get?.mp hmem2
    obtain ⟨hilt, hget⟩ := List.get?_eq_some.mp hga
    refine ⟨a, _, rfl, hget ▸ List.get_mem actions i hilt, ?_, ?_⟩
    · rw [List.length_eraseIdx]
      simp only [if_pos hilt]
      omega
    · intro y hy
      exact (List.eraseIdx_sublist _ _).subset hy
  · rw [if_neg hw]
    exact pop_random_spec hne k

theorem iterSimSteps_some (r : RNG) : ∀ (f : Nat), ∀ (steps p : Nat) (state : GameState)
    (actions : List Action), 50 - steps < f → state.WF → state.frozen = false →
    (∀ a ∈ actions, a ∈ state.calc_available_actions) →
    ∃ res p2, iterSimSteps r f p state actions steps = some (res, p2) := by
  intro f
  induction f with
  | zero =>
    intro steps p state actions hf
    omega
  | succ f ih =>
    intro steps p state actions hf hwf hfr hsub
    by_cases h1 : 50 ≤ steps
    · refine ⟨[⟨steps, none, state.board.count_total⟩], p, ?_⟩
      unfold iterSimSteps
      rw [if_pos h1]
    · by_cases h2 : actions = []
      · refine ⟨[⟨steps, some (otherPlayer state.player_turn),
            state.board.count_total⟩], p, ?_⟩
        unfold iterSimSteps
        rw [if_neg h1, if_pos h2]
      · obtain ⟨a, rest, hta, hamem, hlenr, hsubr⟩ := take_action_spec h2 (r p)
        have haC := hsub a hamem
        rcases hx : state.executeM a with ⟨e2, st2⟩
        have he2 : e2 = none := by
          have hh := exec_generated_action_succeeds hwf hfr haC
          rw [hx] at hh
          exact hh
        subst he2
        have hwf2 : st2.WF := by
          have hh := (exec_generated_wf hwf hfr haC).1
          rw [hx] at hh
          exact hh
        have hfr2 : st2.frozen = false := by
          have hh := (exec_generated_wf hwf hfr haC).2
          rw [hx] at hh
          exact hh
        obtain ⟨res, p2, hres⟩ := ih (steps+1) (p+1) st2 st2.calc_available_actions
          (by omega) hwf2 hfr2 (fun b hb => hb)
        refine ⟨res, p2, ?_⟩
        unfold iterSimSteps
        rw [if_neg h1, if_neg h2]
        simp only [hta, hx]
        exact hres

theorem iterSimBranch_some (r : RNG) (state : GameState) (steps : Nat)
    (hwf : state.WF) : ∀ (n p : Nat) (actions : List Action), n ≤ actions.length →
    (∀ a ∈ actions, a ∈ state.clone.calc_available_actions) →
    ∃ res p2, iterSimBranch r state steps p n actions = some (res, p2) := by
  intro n
  induction n with
  | zero => exact fun p actions _ _ => ⟨[], p, rfl⟩
  | succ n ih =>
    intro p actions hlen hsub
    have hne : actions ≠ [] := by
      intro he
      rw [he] at hlen
      simp at hlen
    obtain ⟨a, rest, hta, hamem, hlenr, hsubr⟩ := take_action_spec hne (r p)
    have haC := hsub a hamem
    have hwfc : state.clone.WF := hwf
    rcases hx : state.clone.executeM a with ⟨e2, st2⟩
    have he2 : e2 = none := by
      have hh := exec_generated_action_succeeds hwfc rfl haC
      rw [hx] at hh
      exact hh
    subst he2
    have hwf2 : st2.WF := by
      have hh := (exec_generated_wf hwfc rfl haC).1
      rw [hx] at hh
      exact hh
    have hfr2 : st2.frozen = false := by
      have hh := (exec_generated_wf hwfc rfl haC).2
      rw [hx] at hh
      exact hh
    obtain ⟨res1, pm, hsteps⟩ := iterSimSteps_some r 50 (steps+1) (p+1) st2
      st2.calc_available_actions (by omega) hwf2 hfr2 (fun b hb => hb)
    obtain ⟨res2, pm2, hbr⟩ := ih pm rest (by omega) (fun b hb => hsub b (hsubr b hb))
    refine ⟨res1 ++ res2, pm2, ?_⟩
    unfold iterSimBranch
    simp only [hta, hx, hsteps, hbr]

theorem iterSimulate_some (r : RNG) (p : Nat) (state : GameState)
    (hwf : state.WF) :
    ∃ res p2, iterSimulate r p state state.calc_available_actions 0 = some (res, p2) := by
  by_cases h2 : state.calc_available_actions = []
  · refine ⟨[⟨0, some (otherPlayer state.player_turn), state.board.count_total⟩], p, ?_⟩
    unfold iterSimulate
    rw [if_neg (by omega), if_pos h2]
  · obtain ⟨res, p2, hbr⟩ := iterSimBranch_some r state 0 hwf
      (min 5 state.calc_available_actions.length) p state.calc_available_actions
      (Nat.min_le_right _ _) (fun a ha => ha)
    refine ⟨res, p2, ?_⟩
    unfold iterSimulate
    rw [if_neg (by omega), if_neg h2, if_pos (by omega)]
    exact hbr

theorem simulate_spec (player : PlayerID) (r : RNG) (p : Nat) (node : MNode)
    (hwf : node.state.clone.WF) :
    ∃ q p2, simulate player r p node = some (.mk node.state node.remaining_actions
      node.children node.visited (node.simulations + 1) q, p2) := by
  obtain ⟨res, p2, hit⟩ := iterSimulate_some r p node.state.clone hwf
  have hne := iterSimulate_ne_nil r _ _ _ _ _ _ hit
  refine ⟨node.reward_total +
    (res.foldl (fun acc r2 => acc + 2 * ratioOf player r2) 0) / ((res.length : Nat) : ℚ),
    p2, ?_⟩
  unfold simulate
  simp only [hit]
  rw [if_neg hne]

theorem expandLoop_spec (player : PlayerID) (r : RNG) :
    ∀ (n p : Nat) (u : MNode) (evs : List (Nat × ℚ)),
    u.state.clone.WF →
    (∀ a ∈ u.remaining_actions, a ∈ u.state.clone.calc_available_actions) →
    n ≤ u.remaining_actions.length →
    ∃ u2 evs2 p2, expandLoop player r p n u evs = some (u2, evs2, p2) ∧
      u2.state = u.state ∧
      u2.simulations = u.simulations + n ∧
      u2.visited = u.visited + n ∧
      u2.children.length = u.children.length + n ∧
      u2.remaining_actions.length + n = u.remaining_actions.length ∧
      (∀ pr ∈ u2.children, pr ∈ u.children ∨ pr.2.simulations = 1) := by
  intro n
  induction n with
  | zero =>
    intro p u evs hwf hsub hlen
    exact ⟨u, evs, p, rfl, rfl, rfl, rfl, rfl, rfl, fun pr hpr => Or.inl hpr⟩
  | succ n ih =>
    intro p u evs hwf hsub hlen
    have hne : u.remaining_actions ≠ [] := by
      intro he
      rw [he] at hlen
      simp at hlen
    obtain ⟨a, rem2, hpop, hamem, hlenr, hsubr⟩ := pop_random_spec hne (r p)
    have haC := hsub a hamem
    rcases hx : u.state.clone.executeM a with ⟨e2, st2⟩
    have he2 : e2 = none := by
      have hh := exec_generated_action_succeeds hwf rfl haC
      rw [hx] at hh
      exact hh
    subst he2
    have hwf2 : st2.WF := by
      have hh := (exec_generated_wf hwf rfl haC).1
      rw [hx] at hh
      exact hh
    obtain ⟨q, p2, hsim⟩ := simulate_spec player r (p+1) (mkMNode st2) hwf2
    obtain ⟨u2, evs2, p3, heq, hstate, hsims, hvis, hchilds, hrem, hnew⟩ :=
      ih p2 (.mk u.state rem2
        (u.children ++ [(a, .mk (mkMNode st2).state (mkMNode st2).remaining_actions
          (mkMNode st2).children (mkMNode st2).visited ((mkMNode st2).simulations + 1) q)])
        (u.visited + 1)
        (u.simulations + (MNode.mk (mkMNode st2).state (mkMNode st2).remaining_actions
          (mkMNode st2).children (mkMNode st2).visited ((mkMNode st2).simulations + 1)
          q).simulations)
        (u.reward_total + (MNode.mk (mkMNode st2).state (mkMNode st2).remaining_actions
          (mkMNode st2).children (mkMNode st2).visited ((mkMNode st2).simulations + 1)
          q).reward_total))
        (evs ++ [((u.simulations + (MNode.mk (mkMNode st2).state
            (mkMNode st2).remaining_actions (mkMNode st2).children (mkMNode st2).visited
            ((mkMNode st2).simulations + 1) q).simulations),
          (u.reward_total + (MNode.mk (mkMNode st2).state (mkMNode st2).remaining_actions
            (mkMNode st2).children (mkMNode st2).visited ((mkMNode st2).simulations + 1)
            q).reward_total))])
        hwf (fun b hb => hsub b (hsubr b hb)) (by
          show n ≤ rem2.length
          omega)
    refine ⟨u2, evs2, p3, ?_, ?_, ?_, ?_, ?_, ?_, ?_⟩
    · unfold expandLoop
      simp only [hpop, hx, hsim]
      exact heq
    · exact hstate
    · rw [hsims]
      show u.simulations + (0 + 1) + n = u.simulations + (n + 1)
      omega
    · rw [hvis]
      show u.visited + 1 + n = u.visited + (n + 1)
      omega
    · rw [hchilds]
      show (u.children ++ [_]).length + n = u.children.length + (n + 1)
      rw [List.length_append]
      simp
      omega
    · have hrem2 : u2.remaining_actions.length + n = rem2.length := hrem
      omega
    · intro pr hpr
      rcases hnew pr hpr with hin | hsims1
      · rcases List.mem_append.mp hin with hin2 | hin2
        · exact Or.inl hin2
        · rcases List.mem_singleton.mp hin2 with rfl
          exact Or.inr rfl
      · exact Or.inr hsims1

theorem iterateFrom_expand {choose : List (Action × MNode) → Option (Action × MNode)}
    {player : PlayerID} {r : RNG} {fuel p : Nat} {node : MNode}
    {n2 : MNode} {evs : List (Nat × ℚ)} {p2 : Nat}
    (hne : node.remaining_actions ≠ [])
    (hexp : expandLoop player r p (min 3 node.remaining_actions.length) node [] =
      some (n2, evs, p2)) :
    iterateFrom choose player r (fuel+1) p node = some (true, n2, evs, p2) := by
  unfold iterateFrom
  rw [if_pos hne, hexp]

theorem iterateFrom_descend {choose : List (Action × MNode) → Option (Action × MNode)}
    {player : PlayerID} {r : RNG} {fuel p : Nat} {node : MNode} {a : Action}
    {c c2 : MNode} {evs : List (Nat × ℚ)} {p2 : Nat}
    (hrem : node.remaining_actions = [])
    (hch : node.children.isEmpty = false)
    (hcho : choose node.children = some (a, c))
    (hrec : iterateFrom choose player r fuel p c = some (true, c2, evs, p2)) :
    iterateFrom choose player r (fuel+1) p node = some (true, .mk node.state
      node.remaining_actions
      (node.children.map fun pr => if pr.1 = a then (a, c2) else pr)
      (applyEvents node.simulations node.reward_total node.visited evs).1.2.2
      (applyEvents node.simulations node.reward_total node.visited evs).1.1
      (applyEvents node.simulations node.reward_total node.visited evs).1.2.1,
      (applyEvents node.simulations node.reward_total node.visited evs).2, p2) := by
  unfold iterateFrom
  rw [if_neg (fun hc => hc hrem), hch]
  show (match choose node.children with
    | none => none
    | some (a, c) =>
      match iterateFrom choose player r fuel p c with
      | none => none
      | some (false, _, _, p2) => some (false, node, [], p2)
      | some (true, c2, evs, p2) =>
        some (true, MNode.mk node.state node.remaining_actions
          (node.children.map fun (pr : Action × MNode) => if pr.1 = a then (a, c2) else pr)
          (applyEvents node.simulations node.reward_total node.visited evs).1.2.2
          (applyEvents node.simulations node.reward_total node.visited evs).1.1
          (applyEvents node.simulations node.reward_total node.visited evs).1.2.1,
          (applyEvents node.simulations node.reward_total node.visited evs).2, p2)) = _
  simp only [hcho, hrec]

theorem runIters_succ {choose : List (Action × MNode) → Option (Action × MNode)}
    {player : PlayerID} {r : RNG} {fuel nIt p : Nat} {node : MNode}
    {b : Bool} {n2 : MNode} {evs : List (Nat × ℚ)} {p2 : Nat}
    (h : iterateFrom choose player r fuel p node = some (b, n2, evs, p2)) :
    runIters choose player r fuel (nIt+1) p node =
      runIters choose player r fuel nIt p2 n2 := by
  conv_lhs => unfold runIters
  rw [h]

/-- The root node built on a state s satisfies the preconditions of
expandLoop_spec. -/
theorem mkMNode_pre (s : GameState) (hwf : s.WF) :
    (mkMNode s).state.clone.WF ∧
      (∀ a ∈ (mkMNode s).remaining_actions,
        a ∈ (mkMNode s).state.clone.calc_available_actions) :=
  ⟨hwf, fun _ ha => ha⟩

/-- C2 (amended): from a root whose state has exactly one legal action, the
first MCTS iteration produces exactly one child of the root, that child's
simulations counter is exactly 1 (= N for N = 1 iterations), and the root
is then fully expanded.  (For N >= 2 the original claim fails:
SimpleBackpropagationPolicy adds the child's accumulated simulations total
to the parent instead of the per-iteration increment, and the expansion
policy creates up to branching = 3 children per iteration below the single
child, so its counter jumps past N; the recorded counterexample reaches
simulations = 4 after N = 2 iterations.) -/
theorem c2_single_action_first_iteration (s : GameState)
    (choose : List (Action × MNode) → Option (Action × MNode)) (player : PlayerID)
    (r : RNG) (fuel p : Nat) (hwf : s.WF)
    (hone : s.calc_available_actions.length = 1) (hfuel : 1 ≤ fuel) :
    ∃ out : MNode × Nat, runIters choose player r fuel 1 p (mkMNode s) = some out ∧
      (out.1.children.map fun pr => pr.2.simulations) = [1] ∧
      out.1.remaining_actions = [] := by
  obtain ⟨g, rfl⟩ : ∃ g, fuel = g + 1 := ⟨fuel - 1, by omega⟩
  have hlen1 : (mkMNode s).remaining_actions.length = 1 := hone
  have hne : (mkMNode s).remaining_actions ≠ [] := by
    intro he
    rw [he] at hlen1
    exact absurd hlen1 (by decide)
  have hmin : min 3 (mkMNode s).remaining_actions.length = 1 := by
    rw [hlen1]
    decide
  obtain ⟨u2, evs2, p2, heq, hstate, hsims, hvis, hchilds, hrem, hnew⟩ :=
    expandLoop_spec player r (min 3 (mkMNode s).remaining_actions.length) p
      (mkMNode s) [] hwf (fun _ ha => ha)
      (le_of_eq (hmin.trans hlen1.symm))
  refine ⟨(u2, p2), ?_, ?_, ?_⟩
  · rw [runIters_succ (iterateFrom_expand hne heq)]
    rfl
  · have hchl : u2.children.length = 1 := by
      rw [hchilds, hmin]
      rfl
    obtain ⟨pr, hpr⟩ := List.length_eq_one.mp hchl
    rw [hpr]
    rcases hnew pr (by rw [hpr]; exact List.mem_singleton.mpr rfl) with hin | hsim1
    · exact absurd hin (by simp [mkMNode, MNode.children])
    · rw [List.map_singleton, hsim1]
  · have : u2.remaining_actions.length = 0 := by
      rw [hmin] at hrem
      omega
    exact List.length_eq_zero.mp this

theorem expandLoop_succ_eq {player : PlayerID} {r : RNG} {p n : Nat} {u : MNode}
    {evs : List (Nat × ℚ)} {a : Action} {rem2 : List Action} {st2 : GameState}
    {child : MNode} {p2 : Nat}
    (hpop : pop_random_from_list u.remaining_actions (r p) = some (a, rem2))
    (hexec : u.state.clone.executeM a = (none, st2))
    (hsim : simulate player r (p+1) (mkMNode st2) = some (child, p2)) :
    expandLoop player r p (n+1) u evs = expandLoop player r p2 n
      (.mk u.state rem2 (u.children ++ [(a, child)]) (u.visited + 1)
        (u.simulations + child.simulations) (u.reward_total + child.reward_total))
      (evs ++ [(u.simulations + child.simulations,
        u.reward_total + child.reward_total)]) := by
  conv_lhs => unfold expandLoop
  simp only [hpop, hexec, hsim]

/-- The state of the C2 counterexample: moving phase for player 0 with
exactly one legal move, (1,1) -> (1,0); the state reached by that move
gives the opponent 9 legal moves. -/
def c2State : GameState :=
  { placed0 := 9, placed1 := 9, player_turn := 0,
    board := { design := { sides := 4, extended := false },
               fields := [(⟨0, 0⟩, ⟨0⟩), (⟨0, 1⟩, ⟨0⟩), (⟨0, 2⟩, ⟨0⟩), (⟨1, 1⟩, ⟨0⟩),
                          (⟨0, 7⟩, ⟨1⟩), (⟨0, 3⟩, ⟨1⟩), (⟨1, 2⟩, ⟨1⟩), (⟨2, 1⟩, ⟨1⟩)],
               count0 := 4, count1 := 4 },
    max_placed_items := 9, frozen := false }

def c2Move : Action := Action.move 0 ⟨1, 1⟩ ⟨1, 0⟩ none

def c2r : RNG := fun _ => 0

/-- The UCB1 selection on a single child: the sorted list's head is that
child whatever the scores, so the selection is head?. -/
def c2choose : List (Action × MNode) → Option (Action × MNode) := fun l => l.head?

/-- C2 counterexample: at c2State (exactly one legal action) with the
default policies, after N = 2 iterations the single child of the root has
simulations = 4, not 2: backpropagation adds the child's accumulated total
(2, then 3, then 4 as the three grandchildren are simulated) instead of 1
per iteration. -/
theorem c2_single_action_counterexample :
    c2State.calc_available_actions.length = 1 ∧
    ∃ out : MNode × Nat,
      runIters c2choose 0 c2r 2 2 0 (mkMNode c2State) = some out ∧
      (out.1.children.map fun pr => pr.2.simulations) = [4] ∧
      ¬ (out.1.children.map fun pr => pr.2.simulations) = [2] := by
  have d1 : c2State.WF := by decide
  have d2 : c2State.calc_available_actions = [c2Move] := by decide
  have hx : c2State.executeM c2Move = (none, (c2State.executeM c2Move).2) := by decide
  have d3 : (c2State.executeM c2Move).2.WF := by decide
  have d4 : (c2State.executeM c2Move).2.calc_available_actions.length = 9 := by decide
  set S1 := (c2State.executeM c2Move).2 with hS1
  -- iteration 1: expansion of the root with its single action
  have hrootrem : (mkMNode c2State).remaining_actions = [c2Move] := d2
  have hrootne : (mkMNode c2State).remaining_actions ≠ [] := by
    rw [hrootrem]
    simp
  have hmin1 : min 3 (mkMNode c2State).remaining_actions.length = 1 := by
    rw [hrootrem]
    rfl
  have hpop1 : pop_random_from_list (mkMNode c2State).remaining_actions (c2r 0) =
      some (c2Move, []) := by
    rw [hrootrem]
    rfl
  have hexec1 : (mkMNode c2State).state.clone.executeM c2Move = (none, S1) := hx
  obtain ⟨q1, p2, hsim1⟩ := simulate_spec 0 c2r (0+1) (mkMNode S1) d3
  set child1 : MNode := MNode.mk (mkMNode S1).state (mkMNode S1).remaining_actions
    (mkMNode S1).children (mkMNode S1).visited ((mkMNode S1).simulations + 1) q1
    with hchild1
  set root1 : MNode := MNode.mk (mkMNode c2State).state []
    ((mkMNode c2State).children ++ [(c2Move, child1)])
    ((mkMNode c2State).visited + 1)
    ((mkMNode c2State).simulations + child1.simulations)
    ((mkMNode c2State).reward_total + child1.reward_total) with hroot1
  have hexp1 : expandLoop 0 c2r 0 1 (mkMNode c2State) [] =
      some (root1, [((mkMNode c2State).simulations + child1.simulations,
        (mkMNode c2State).reward_total + child1.reward_total)], p2) := by
    refine Eq.trans (expandLoop_succ_eq hpop1 hexec1 hsim1) ?_
    rfl
  have hexp1m : expandLoop 0 c2r 0 (min 3 (mkMNode c2State).remaining_actions.length)
      (mkMNode c2State) [] =
      some (root1, [((mkMNode c2State).simulations + child1.simulations,
        (mkMNode c2State).reward_total + child1.reward_total)], p2) := by
    rw [hmin1]
    exact hexp1
  have h1 : iterateFrom c2choose 0 c2r 2 0 (mkMNode c2State) =
      some (true, root1, [((mkMNode c2State).simulations + child1.simulations,
        (mkMNode c2State).reward_total + child1.reward_total)], p2) :=
    iterateFrom_expand hrootne hexp1m
  -- iteration 2: descend into the single child and expand it with 3 actions
  have hrem1 : root1.remaining_actions = [] := rfl
  have hch1 : root1.children.isEmpty = false := rfl
  have hcho1 : c2choose root1.children = some (c2Move, child1) := rfl
  have hc1rem : child1.remaining_actions.length = 9 := d4
  have hc1ne : child1.remaining_actions ≠ [] := by
    intro he
    rw [he] at hc1rem
    exact absurd hc1rem (by decide)
  have hc1wf : child1.state.clone.WF := d3
  obtain ⟨c2n, evs2, p3, heq2, hst2, hsims2, hvis2, hchl2, hrem2, hnew2⟩ :=
    expandLoop_spec 0 c2r (min 3 child1.remaining_actions.length) p2 child1 []
      hc1wf (fun a ha => ha) (Nat.min_le_right _ _)
  have hmin3 : min 3 child1.remaining_actions.length = 3 := by
    rw [hc1rem]
    rfl
  have hcs4 : c2n.simulations = 4 := by
    rw [hsims2, hmin3]
    rfl
  have hIfc1 : iterateFrom c2choose 0 c2r 1 p2 child1 = some (true, c2n, evs2, p3) :=
    iterateFrom_expand hc1ne heq2
  have hIter2 := iterateFrom_descend hrem1 hch1 hcho1 hIfc1
  have hmapc : root1.children.map
      (fun pr => if pr.1 = c2Move then (c2Move, c2n) else pr) = [(c2Move, c2n)] := by
    show ((mkMNode c2State).children ++ [(c2Move, child1)]).map _ = _
    simp
    rfl
  refine ⟨by rw [d2]; rfl, _,
    (runIters_succ h1).trans ((runIters_succ hIter2).trans rfl), ?_, ?_⟩
  · show (root1.children.map
        (fun pr => if pr.1 = c2Move then (c2Move, c2n) else pr)).map
        (fun pr => pr.2.simulations) = [4]
    rw [hmapc]
    simp [hcs4]
  · show ¬ (root1.children.map
        (fun pr => if pr.1 = c2Move then (c2Move, c2n) else pr)).map
        (fun pr => pr.2.simulations) = [2]
    rw [hmapc]
    simp [hcs4]

/-- Witness for the amended C2 theorem at the counterexample state: one
iteration on c2State (exactly one legal action) gives exactly one child
with simulations = 1 and a fully expanded root. -/
theorem c2_single_action_first_iteration_witness :
    c2State.WF ∧ c2State.calc_available_actions.length = 1 ∧ 1 ≤ 1 ∧
    ∃ out : MNode × Nat, runIters c2choose 0 c2r 1 1 0 (mkMNode c2State) = some out ∧
      (out.1.children.map fun pr => pr.2.simulations) = [1] ∧
      out.1.remaining_actions = [] :=
  ⟨by decide, by decide, by decide,
    c2_single_action_first_iteration c2State c2choose 0 c2r 1 0 (by decide) (by decide)
      (by decide)⟩

end Muehle
